/-
Verification of the siegfried format-identification engine.

This file gives a shallow embedding, in Lean 4, of the parts of the
siegfried source that the checked properties are about:

* the pattern primitives (Sequence, Choice, List, Not and the PRONOM
  extensions Range, Mask, AnyMask) with their forward and reverse tests,
  equality, lengths, and the save/load codec
  (pkg/core/bytematcher/patterns/patterns.go and the pronom patterns file);
* the PRONOM identifier's Recorder (pkg/pronom/identifier.go):
  scoring constants, Satisfied and Report;
* the container matcher's hit processing (containermatcher):
  checkWait, checkHits, processHits and Matcher.Identify;
* the byte matcher's tally loop (pkg/core/bytematcher/tally.go):
  filterHits and sendResult, modelled as a pure trace-producing fold;
* the byte matcher compiler's updatePositions (process package);
* the siegreader SmallFile.EofSlice.

Go slices of bytes are modelled as List Nat (byte values), Go int64 as Int
where negative sentinels (-1 for "unbounded") matter, Go int lengths as Nat.
Channel receives are modelled explicitly: a function returns Option r where
none means the call blocks forever.  Slice indexing is modelled with getD
(Go code panics out of bounds; the modelled scans keep indices in bounds).
-/
import Mathlib

namespace Siegfried

/-- Byte strings (Go []byte); each entry is a byte value. -/
abbrev Bytes := List Nat

/-- Go bytes.Compare: lexicographic comparison, a proper prefix is smaller.
Returns -1, 0 or 1. -/
def bytesCompare : Bytes → Bytes → Int
  | [], [] => 0
  | [], _ :: _ => -1
  | _ :: _, [] => 1
  | a :: as, b :: bs => if a < b then -1 else if b < a then 1 else bytesCompare as bs

/-- The pattern variants used by the byte matcher: the core patterns
Sequence, Choice, List, Not (patterns.go) and PRONOM's Range, Mask and
AnyMask (the pronom patterns file).  BMH is a precomputed copy of Sequence
and is not needed by any checked property. -/
inductive Pattern where
  | sequence (s : Bytes)
  | choice (ps : List Pattern)
  | plist (ps : List Pattern)
  | pnot (p : Pattern)
  | range (lo hi : Bytes)
  | mask (m : Nat)
  | anyMask (m : Nat)

/-- Pattern.Length: minimum and maximum lengths (Go Length() (int, int)).
Choice takes the min of mins and max of maxes (seeded from the first element),
List sums, Not uses the inner minimum for both. -/
def patLength : Pattern → Nat × Nat
  | .sequence s => (s.length, s.length)
  | .choice ps =>
    let init : Nat × Nat :=
      match ps with
      | [] => (0, 0)
      | p :: _ => patLength p
    ps.attach.foldl
      (fun mm pp =>
        let mm2 := patLength pp.1
        ((if mm2.1 < mm.1 then mm2.1 else mm.1), (if mm2.2 > mm.2 then mm2.2 else mm.2)))
      init
  | .plist ps =>
    ps.attach.foldl
      (fun mm pp =>
        let mm2 := patLength pp.1
        (mm.1 + mm2.1, mm.2 + mm2.2))
      (0, 0)
  | .pnot p => ((patLength p).1, (patLength p).1)
  | .range lo _ => (lo.length, lo.length)
  | .mask _ => (1, 1)
  | .anyMask _ => (1, 1)
decreasing_by
  all_goals simp_wf
  all_goals first
    | omega
    | (have h := List.sizeOf_lt_of_mem pp.2; simp at h ⊢; omega)

/-- One step of the Go Choice.test loop: state is (r, tl, fl) and (res, lgth)
is the child test outcome.  On success set r and keep the longest success
length; on failure keep the longest failure skip. -/
def choiceStep (acc : Bool × Nat × Nat) (out : Bool × Nat) : Bool × Nat × Nat :=
  let (r, tl, fl) := acc
  let (res, lgth) := out
  if res then (true, (if lgth > tl then lgth else tl), fl)
  else (r, tl, (if lgth > fl then lgth else fl))

/-- One step of the Go List.Test loop body (over l[1:]): the state is either
inl total (still matching) or inr of an early return value. -/
def listStep (b : Bytes) (first : Nat) (acc : Sum Nat (Bool × Nat)) (out : Nat → Bool × Nat) :
    Sum Nat (Bool × Nat) :=
  match acc with
  | .inr r => .inr r
  | .inl total =>
    if b.length ≤ total then .inr (false, 0)
    else
      let (success, le) := out total
      if success then .inl (total + le) else .inr (false, first)

/-- Pattern.Test and Pattern.TestR (Go).  rev = false is Test (anchored at
the start of the byte slice), rev = true is TestR (anchored at the end).
Choice.test takes the test function as an argument in Go; here the rev flag
plays that role.  List.TestR walks the patterns from last to first, so the
embedding recurses over ps.reverse. -/
def testG (rev : Bool) : Pattern → Bytes → Bool × Nat
  | .sequence s, b =>
    if b.length < s.length then (false, 0)
    else if rev then
      (if s = b.drop (b.length - s.length) then (true, s.length) else (false, 1))
    else
      (if s = b.take s.length then (true, s.length) else (false, 1))
  | .choice ps, b =>
    let (r, tl, fl) :=
      ps.attach.foldl (fun acc pp => choiceStep acc (testG rev pp.1 b)) (false, 0, 0)
    if r then (r, tl) else (r, fl)
  | .plist ps, b =>
    if rev then
      match hr : ps.reverse with
      | [] => (false, 0)
      | pL :: restR =>
        let (success, first) := testG true pL b
        if success then
          let st := restR.attach.foldl
            (fun acc pp => listStep b first acc
              (fun total => testG true pp.1 (b.take (b.length - total))))
            (.inl first)
          match st with
          | .inl total => (true, total)
          | .inr r => r
        else (false, first)
    else
      match ps with
      | [] => (false, 0)
      | p0 :: rest =>
        let (success, first) := testG false p0 b
        if success then
          let st := rest.attach.foldl
            (fun acc pp => listStep b first acc
              (fun total => testG false pp.1 (b.drop total)))
            (.inl first)
          match st with
          | .inl total => (true, total)
          | .inr r => r
        else (false, first)
  | .pnot p, b =>
    let mn := (patLength p).1
    if b.length < mn then (false, 0)
    else if (testG rev p b).1 then (false, 1) else (true, mn)
  | .range lo hi, b =>
    if b.length < lo.length ∨ b.length < hi.length then (false, 0)
    else if rev then
      (if bytesCompare lo (b.drop (b.length - lo.length)) < 1 ∧
          bytesCompare hi (b.drop (b.length - hi.length)) > -1 then (true, lo.length)
       else (false, 1))
    else
      (if bytesCompare lo (b.take lo.length) < 1 ∧
          bytesCompare hi (b.take hi.length) > -1 then (true, lo.length)
       else (false, 1))
  | .mask m, b =>
    match (if rev then b.getLast? else b.head?) with
    | none => (false, 0)
    | some x => if m &&& x = m then (true, 1) else (false, 1)
  | .anyMask m, b =>
    match (if rev then b.getLast? else b.head?) with
    | none => (false, 0)
    | some x => if m &&& x ≠ 0 then (true, 1) else (false, 1)
decreasing_by
  all_goals simp_wf
  all_goals first
    | omega
    | (have h := List.sizeOf_lt_of_mem pp.2; simp at h ⊢; omega)
    | (have hm : pL ∈ ps := by
         have : pL ∈ ps.reverse := by rw [hr]; exact List.mem_cons_self _ _
         exact List.mem_reverse.mp this
       have h := List.sizeOf_lt_of_mem hm; simp at h ⊢; omega)
    | (have hm : pp.1 ∈ ps := by
         have h1 : pp.1 ∈ ps.reverse := by
           rw [hr]; exact List.mem_cons_of_mem _ pp.2
         exact List.mem_reverse.mp h1
       have h := List.sizeOf_lt_of_mem hm; simp at h ⊢; omega)

/-- Pattern.Equals (Go).  Sequence/Range/Mask/AnyMask compare payloads,
Not compares the inner patterns, Choice requires equal length and for each
child an equal child on the other side (the Go double loop).  List.Equals is
transcribed exactly as written in patterns.go: after a same-length
element-wise check it falls through to return true, and it also returns
true when the other pattern is not a List or has a different length. -/
def patEquals : Pattern → Pattern → Bool
  | .sequence s, pat =>
    match pat with
    | .sequence s2 => s = s2
    | _ => false
  | .choice ps, pat =>
    match pat with
    | .choice ps2 =>
      if ps.length = ps2.length then
        ps.attach.all (fun pp => ps2.any (fun p2 => patEquals pp.1 p2))
      else false
    | _ => false
  | .plist ps, pat =>
    match pat with
    | .plist ps2 =>
      if ps.length = ps2.length then
        (ps.attach.zip ps2).all (fun pr => patEquals pr.1.1 pr.2)
      else true
    | _ => true
  | .pnot p, pat =>
    match pat with
    | .pnot p2 => patEquals p p2
    | _ => false
  | .range lo hi, pat =>
    match pat with
    | .range lo2 hi2 => lo2 = lo ∧ hi2 = hi
    | _ => false
  | .mask m, pat =>
    match pat with
    | .mask m2 => m = m2
    | _ => false
  | .anyMask m, pat =>
    match pat with
    | .anyMask m2 => m = m2
    | _ => false
decreasing_by
  all_goals simp_wf
  all_goals first
    | omega
    | (have h := List.sizeOf_lt_of_mem pp.2; simp at h ⊢; omega)
    | (have h := List.sizeOf_lt_of_mem pr.1.2; simp at h ⊢; omega)

/-- The primitive writes of the persist.LoadSaver codec.  The persist
package itself is not under src/ (only its callers are).
Modelled from the spec: the signature-file codec is "a sequence of
primitive writes (byte, small-int, ..., byte-slice, ...)" and is
order-preserving, so the store is a list of primitive tokens read back in
the order they were written. -/
inductive Prim where
  | pByte (b : Nat)
  | pBytes (bs : Bytes)
  | pSmallInt (n : Nat)
deriving DecidableEq

/-- The pattern-variant tag bytes (patterns.go: sequence=0, choice=1,
list=2, not=3, bmh=4, rbmh=5; pronom: range=8, mask=9, anyMask=10). -/
def sequenceLoader : Nat := 0
def choiceLoader : Nat := 1
def listLoader : Nat := 2
def notLoader : Nat := 3
def rangeLoader : Nat := 8
def maskLoader : Nat := 9
def anyMaskLoader : Nat := 10

/-- Pattern.Save (Go): tag byte then the payload; Choice and List save a
small int count then each child in order; Range saves From then To. -/
def save : Pattern → List Prim
  | .sequence s => [.pByte sequenceLoader, .pBytes s]
  | .choice ps =>
    .pByte choiceLoader :: .pSmallInt ps.length ::
      (ps.attach.map (fun pp => save pp.1)).flatten
  | .plist ps =>
    .pByte listLoader :: .pSmallInt ps.length ::
      (ps.attach.map (fun pp => save pp.1)).flatten
  | .pnot p => .pByte notLoader :: save p
  | .range lo hi => [.pByte rangeLoader, .pBytes lo, .pBytes hi]
  | .mask m => [.pByte maskLoader, .pByte m]
  | .anyMask m => [.pByte anyMaskLoader, .pByte m]
decreasing_by
  all_goals simp_wf
  all_goals first
    | omega
    | (have h := List.sizeOf_lt_of_mem pp.2; simp at h ⊢; omega)

/-- Nesting depth of a pattern; used as the fuel for the loader (the Go
loader recurses through the registry with no explicit bound; recursion
depth is the nesting depth of the saved pattern). -/
def pdepth : Pattern → Nat
  | .choice ps => 1 + ps.attach.foldl (fun m pp => max m (pdepth pp.1)) 0
  | .plist ps => 1 + ps.attach.foldl (fun m pp => max m (pdepth pp.1)) 0
  | .pnot p => 1 + pdepth p
  | _ => 1
decreasing_by
  all_goals simp_wf
  all_goals first
    | omega
    | (have h := List.sizeOf_lt_of_mem pp.2; simp at h ⊢; omega)

mutual
/-- patterns.Load (Go): read the tag byte, dispatch to the registered
loader, which reads the payload (recursively for Choice/List/Not).  The
fuel argument bounds the recursion depth; loadP (pdepth p) is enough to
load (save p).  Tags 4-6 (BMH variants) and unregistered tags load as
none ("bad pattern loader" / not modelled). -/
def loadP : Nat → List Prim → Option (Pattern × List Prim)
  | 0, _ => none
  | _ + 1, .pByte 0 :: .pBytes s :: rest => some (.sequence s, rest)
  | fuel + 1, .pByte 1 :: .pSmallInt n :: rest =>
    (loadMany fuel n rest).map (fun pr => (.choice pr.1, pr.2))
  | fuel + 1, .pByte 2 :: .pSmallInt n :: rest =>
    (loadMany fuel n rest).map (fun pr => (.plist pr.1, pr.2))
  | fuel + 1, .pByte 3 :: rest =>
    (loadP fuel rest).map (fun pr => (.pnot pr.1, pr.2))
  | _ + 1, .pByte 8 :: .pBytes lo :: .pBytes hi :: rest => some (.range lo hi, rest)
  | _ + 1, .pByte 9 :: .pByte m :: rest => some (.mask m, rest)
  | _ + 1, .pByte 10 :: .pByte m :: rest => some (.anyMask m, rest)
  | _ + 1, _ => none

/-- Load n consecutive patterns (the Choice/List loader loops). -/
def loadMany : Nat → Nat → List Prim → Option (List Pattern × List Prim)
  | _, 0, rest => some ([], rest)
  | fuel, n + 1, rest =>
    match loadP fuel rest with
    | none => none
    | some (p, rest1) =>
      match loadMany fuel n rest1 with
      | none => none
      | some (ps, rest2) => some (p :: ps, rest2)
end

/-! ## PRONOM identifier / Recorder (pkg/pronom/identifier.go) -/

/-- core.MatcherType.  The core matcher-type constants are declared in a
core file that is not under src/; the set of values is taken from their
uses in pkg/pronom/identifier.go and the container matcher. -/
inductive MatcherType where
  | nameM | mimeM | containerM | byteM | xmlM | textM
deriving DecidableEq

/-- Scoring constants (identifier.go: extScore = 1 << iota, ...). -/
def extScore : Nat := 1
def mimeScore : Nat := 2
def textScore : Nat := 4
def incScore : Nat := 8

/-- config.TextPuid().  The config package is not under src/; the PUID for
plain text in the PRONOM registry is x-fmt/111.  Only its role as a
distinguished identifier matters; no property depends on the literal. -/
def textPuid : String := "x-fmt/111"

/-- pronom.Identification: the fields carried per candidate. -/
structure PIdent where
  ns : String
  ID : String
  name : String
  version : String
  mime : String
  basis : List String
  warning : String
  archive : Nat
  confidence : Nat
deriving DecidableEq

/-- pronom.Recorder state, together with the identifier.Base lookups the
recorder methods call (Base is in a core file not under src/; its IDs,
Start and NoPriority results are carried as data: idsFor m lists the format
IDs that have a signature in matcher m, start is Base.Start for the byte
matcher). -/
structure PRecorder where
  rname : String
  ids : List PIdent
  cscore : Nat
  satisfied : Bool
  extActive : Bool
  mimeActive : Bool
  textActive : Bool
  nameIDs : List String
  mimeIDs : List String
  containerIDs : List String
  byteIDs : List String
  noPriority : Bool
  start : Int
deriving DecidableEq

/-- Recorder.Satisfied (identifier.go lines 191-210), returning the updated
recorder alongside the (bool, int) result.  With no byte/container score
yet it declines for the byte and XML matchers, for an empty candidate list,
and whenever any candidate is the text PUID (the Go loop returns false at
the first text candidate). -/
def satisfiedR (r : PRecorder) (mt : MatcherType) : PRecorder × Bool × Int :=
  if r.cscore < incScore ∧
      (mt = .byteM ∨ mt = .xmlM ∨ r.ids.length = 0 ∨
        r.ids.any (fun v => v.ID = textPuid)) then
    (r, false, 0)
  else
    ({ r with satisfied := true }, true, if mt = .byteM then r.start else 0)

/-- lowConfidence (identifier.go): describe the evidence bits present in a
confidence value. -/
def lowConfidence (conf : Nat) : String :=
  let ls : List String :=
    (if conf &&& extScore = extScore then ["extension"] else []) ++
    (if conf &&& mimeScore = mimeScore then ["MIME"] else []) ++
    (if conf &&& textScore = textScore then ["text"] else [])
  match ls with
  | [] => ""
  | [a] => a
  | [a, b] => a ++ " and " ++ b
  | a :: rest => String.intercalate ", " ((a :: rest).dropLast) ++ " and " ++ (a :: rest).getLastD ""

/-- Recorder.hasSig: the format has a container or byte signature. -/
def hasSig (r : PRecorder) (puid : String) : Bool :=
  r.containerIDs.contains puid || r.byteIDs.contains puid

/-- Append a warning clause, separated by "; " when one is present. -/
def appendWarning (i : PIdent) (w : String) : PIdent :=
  if i.warning.length > 0 then { i with warning := i.warning ++ "; " ++ w }
  else { i with warning := w }

/-- Recorder.checkActive: add extension / MIME mismatch warnings for
identifications that have a registered extension / MIME signature but did
not score that evidence. -/
def checkActive (r : PRecorder) (i : PIdent) : PIdent :=
  let i1 :=
    if r.extActive ∧ ¬ (i.confidence &&& extScore = extScore) ∧ r.nameIDs.contains i.ID then
      appendWarning i "extension mismatch"
    else i
  if r.mimeActive ∧ ¬ (i1.confidence &&& mimeScore = mimeScore) ∧ r.mimeIDs.contains i1.ID then
    appendWarning i1 "MIME mismatch"
  else i1

/-- Insert into a list sorted by descending confidence (model of the Go
sort.Sort over pids, whose Less is p[j].confidence < p[i].confidence). -/
def insertByConf (v : PIdent) : List PIdent → List PIdent
  | [] => [v]
  | w :: ws => if w.confidence < v.confidence then v :: w :: ws else w :: insertByConf v ws

/-- Sort candidates by descending confidence. -/
def sortPids (ids : List PIdent) : List PIdent :=
  ids.foldr insertByConf []

/-- The low-confidence pruning loop inside Report (identifier.go lines
243-269): walk the sorted candidates accumulating at most one admissible
extension/MIME-only match; a second admissible match clears the
accumulator and breaks. -/
def lcLoop (r : PRecorder) (conf : Nat) : List PIdent → List PIdent → List PIdent
  | [], nids => nids
  | v :: rest, nids =>
    if conf > mimeScore ∧ v.confidence ≠ conf then nids
    else if v.ID = textPuid ∧ conf < textScore ∧ r.textActive then lcLoop r conf rest nids
    else if ¬ hasSig r v.ID then
      if nids.length > 0 then []
      else lcLoop r conf rest [appendWarning v ("match on " ++ lowConfidence v.confidence ++ " only")]
    else lcLoop r conf rest nids

/-- The synthetic UNKNOWN identification emitted when nothing matched at
all (Report's else branch). -/
def unknownNoMatch (nm : String) : PIdent :=
  ⟨nm, "UNKNOWN", "", "", "", [], "no match", 0, 0⟩

/-- The synthetic UNKNOWN listing low-confidence possibilities. -/
def unknownPoss (nm : String) (conf : Nat) (poss : List String) : PIdent :=
  ⟨nm, "UNKNOWN", "", "", "",  [],
    "no match; possibilities based on " ++ lowConfidence conf ++ " are " ++
      String.intercalate ", " poss, 0, 0⟩

/-- The emission loop at the end of Report: the top candidate, then every
following candidate while its confidence equals the top confidence (or,
with NoPriority, is at least a byte match). -/
def emitLoop (r : PRecorder) (conf : Nat) : List PIdent → List PIdent
  | [] => []
  | i0 :: rest =>
    checkActive r i0 ::
      (rest.takeWhile (fun v => v.confidence = conf ∨ (r.noPriority ∧ v.confidence ≥ incScore))).map
        (checkActive r)

/-- Recorder.Report (identifier.go lines 235-293), as the list of
identifications sent on the result channel, in order. -/
def report (r : PRecorder) : List PIdent :=
  if r.ids.length > 0 then
    let sorted := sortPids r.ids
    let conf := (sorted.headD (unknownNoMatch r.rname)).confidence
    if conf ≤ textScore then
      let nids := lcLoop r conf sorted []
      if nids.length ≠ 1 then
        let conf2 := sorted.foldl (fun c v => c ||| v.confidence) conf
        let poss := sorted.map (fun v => v.ID)
        emitLoop r conf2 [unknownPoss r.rname conf2 poss]
      else emitLoop r conf nids
    else emitLoop r conf sorted
  else [unknownNoMatch r.rname]

/-! ## Container matcher (containermatcher) -/

/-- Go sort.Search: binary search for the smallest index in [i, j) at
which f holds, assuming f is monotone; transcribed loop.  The fuel
argument (at least j - i at the call site) stands in for the loop's
termination: the interval shrinks every iteration. -/
def goSearchLoop (f : Nat → Bool) : Nat → Nat → Nat → Nat
  | 0, i, _ => i
  | fuel + 1, i, j =>
    if i < j then
      let mid := (i + j) / 2
      if f mid then goSearchLoop f fuel i mid else goSearchLoop f fuel (mid + 1) j
    else i

/-- sort.SearchInts(a, x): smallest index with a[idx] ≥ x. -/
def searchInts (a : List Nat) (x : Nat) : Nat :=
  goSearchLoop (fun k => a.getD k 0 ≥ x) a.length 0 a.length

/-- ContainerMatcher.checkWait: with no wait list every hit passes;
otherwise binary-search the (sorted ascending) wait list for the
signature index. -/
def checkWaitL (waitList : Option (List Nat)) (i : Nat) : Bool :=
  match waitList with
  | none => true
  | some wl =>
    let idx := searchInts wl i
    ¬ (idx = wl.length ∨ wl.getD idx 0 ≠ i)

/-- A container part hit: signature index, entry name, basis. -/
structure Hit where
  id : Nat
  name : String
  basis : String
deriving DecidableEq

/-- ContainerMatcher.checkHits: a hit for signature i is admitted only if
no hit for i is in the current hits buffer (dedup per entry). -/
def checkHits (hits : List Hit) (i : Nat) : Bool :=
  hits.all (fun h => h.id ≠ i)

/-- The static per-entry-name test (CTest): signatures satisfied by the
name alone, and the signatures whose inner byte signature must also match
(Unsatisfied maps an inner byte-matcher index to the container signature).
The CTest structure itself is declared in a containermatcher file not
under src/; these are the two fields the scan loop reads. -/
structure CTest where
  satisfied : List Nat
  unsatisfied : List Nat
deriving DecidableEq

/-- The mutable scan state of a ContainerMatcher: recorded part hits per
signature, ruled-out flags and the current wait list. -/
structure CMState where
  partsMatched : List (List Hit)
  ruledOut : List Bool
  waitList : Option (List Nat)
deriving DecidableEq

/-- The byte-hit collection loop of CTest.identify: for each inner
byte-matcher result, map it to its container signature and admit it if it
passes the wait list and is not already hit for this entry. -/
def byteHitLoop (st : CMState) (unsat : List Nat) (nm : String) :
    List (Nat × String) → List Hit → List Hit
  | [], hits => hits
  | (idx, basis) :: rest, hits =>
    let h := unsat.getD idx 0
    if checkWaitL st.waitList h ∧ checkHits hits h then
      byteHitLoop st unsat nm rest (hits ++ [⟨h, nm, basis⟩])
    else byteHitLoop st unsat nm rest hits

/-- CTest.identify: name-only hits for the Satisfied signatures (filtered
by the wait list), then byte hits for the Unsatisfied ones.  The inner
byte-matcher results are supplied as a list of (index, basis) pairs. -/
def ctIdentify (st : CMState) (ct : CTest) (nm : String)
    (byteResults : List (Nat × String)) : List Hit :=
  let nameHits := (ct.satisfied.filter (checkWaitL st.waitList)).map
    (fun h => (⟨h, nm, "name only"⟩ : Hit))
  byteHitLoop st ct.unsatisfied nm byteResults nameHits

/-- A container result is the list of part hits for the satisfied
signature; its Index is the id of the first hit (-1 when empty). -/
def resIndex : List Hit → Int
  | [] => -1
  | h :: _ => h.id

/-- Record one hit: append it to the signature's part list. -/
def addPart (st : CMState) (h : Hit) : CMState :=
  { st with partsMatched :=
      st.partsMatched.set h.id (st.partsMatched.getD h.id [] ++ [h]) }

/-- The hit loop inside processHits: record each hit; when the signature's
hit count reaches its part count and it passes the wait list, emit a
result; with priorities, an empty priority list for the emitted signature
returns true (quit) at once, a non-empty one becomes the wait list.
inr means the Go early return true. -/
def phLoop (parts : List Nat) (prios : Option (List (List Nat))) :
    List Hit → CMState → List (List Hit) →
    Sum (CMState × List (List Hit)) (CMState × List (List Hit))
  | [], st, out => .inl (st, out)
  | h :: rest, st, out =>
    let st1 := addPart st h
    if (st1.partsMatched.getD h.id []).length = parts.getD h.id 0 ∧
        checkWaitL st1.waitList h.id then
      let out1 := out ++ [st1.partsMatched.getD h.id []]
      match prios with
      | some pr =>
        if (pr.getD h.id []).length = 0 then .inr (st1, out1)
        else phLoop parts prios rest ⟨st1.partsMatched, st1.ruledOut, some (pr.getD h.id [])⟩ out1
      | none => phLoop parts prios rest st1 out1
    else phLoop parts prios rest st1 out

/-- Rule out every signature of the ctest (the no-hits case). -/
def ruleOutAll (st : CMState) (ct : CTest) : CMState :=
  let ro1 := ct.satisfied.foldl (fun ro v => ro.set v true) st.ruledOut
  { st with ruledOut := ct.unsatisfied.foldl (fun ro v => ro.set v true) ro1 }

/-- Rule out the ctest signatures whose latest recorded hit is not from
this entry (they missed a required part here). -/
def ruleOutStale (st : CMState) (ct : CTest) (nm : String) : CMState :=
  let stale := fun (pm : List (List Hit)) (v : Nat) =>
    (pm.getD v []).length = 0 ∨ ((pm.getD v []).getLastD ⟨0, "", ""⟩).name ≠ nm
  let ro1 := ct.satisfied.foldl
    (fun ro v => if stale st.partsMatched v then ro.set v true else ro) st.ruledOut
  let ro2 := ct.unsatisfied.foldl
    (fun ro v => if stale st.partsMatched v then ro.set v true else ro) ro1
  { st with ruledOut := ro2 }

/-- ContainerMatcher.processHits: returns the state, the emitted results
in order, and whether the scan should stop (the Go bool). -/
def processHits (parts : List Nat) (prios : Option (List (List Nat)))
    (ct : CTest) (nm : String) (st : CMState) (hits : List Hit) :
    CMState × List (List Hit) × Bool :=
  if hits.length = 0 then (ruleOutAll st ct, [], false)
  else
    match phLoop parts prios hits st [] with
    | .inr (st1, out) => (st1, out, true)
    | .inl (st1, out) =>
      if hits.length = ct.satisfied.length + ct.unsatisfied.length then (st1, out, false)
      else
        let st2 := ruleOutStale st1 ct nm
        (st2, out,
          (st2.waitList.getD []).all (fun v => st2.ruledOut.getD v false))

/-- The count-based specification of which results one processHits call
emits: a result for signature i is sent exactly when the recorded hit
count for i reaches Parts[i] and, at that moment, i passes the current
wait list; an emitted signature with an empty priority list stops the
scan, a non-empty one becomes the wait list. -/
def specEmits (parts : List Nat) (prios : Option (List (List Nat))) :
    List Hit → List Nat → Option (List Nat) → List Nat
  | [], _, _ => []
  | h :: rest, counts, wl =>
    let counts1 := counts.set h.id (counts.getD h.id 0 + 1)
    if counts1.getD h.id 0 = parts.getD h.id 0 ∧ checkWaitL wl h.id then
      h.id ::
        (match prios with
         | some pr =>
           if (pr.getD h.id []).length = 0 then []
           else specEmits parts prios rest counts1 (some (pr.getD h.id []))
         | none => specEmits parts prios rest counts1 wl)
    else specEmits parts prios rest counts1 wl

/-- One container family entry of the top-level Matcher: its 8-byte
trigger, its default extension, its signature part counts, and whether
opening the container reader succeeds.  The trigger and reader functions
live in containermatcher files not under src/; Identify only branches on
their outcomes. -/
structure CMEntry where
  trigger : Bytes → Bool
  cdefault : String
  parts : List Nat
  rdrOk : Bool

/-- What containermatcher.Matcher.Identify returns: none models returning
a nil channel. -/
inductive IdOutcome where
  | defaultHitOut (i : Int)
  | closedEmpty
  | scanStarted
deriving DecidableEq

/-- filepath.Ext: the suffix from the final dot (including it), "" when
the name has no dot in its last element; names here have no slashes. -/
def fileExt (n : String) : String :=
  let cs := n.toList
  match (cs.reverse.takeWhile (fun c => c ≠ '.')).length with
  | k => if cs.contains '.' then String.mk (cs.drop (cs.length - k - 1)) else ""

/-- strings.TrimPrefix(s, "."): drop one leading dot. -/
def trimDot (s : String) : String :=
  match s.toList with
  | '.' :: rest => String.mk rest
  | _ => s

/-- ContainerMatcher.defaultMatch: a configured default extension equal to
the filename's extension short-circuits to the last container signature. -/
def defaultMatch (c : CMEntry) (n : String) : Bool × Int :=
  if c.cdefault = "" then (false, 0)
  else
    let ext := fileExt n
    if ext.length > 0 ∧ trimDot ext = c.cdefault then (true, (c.parts.length : Int) - 1)
    else (false, 0)

/-- Matcher.Identify (containermatcher): slice the first 8 bytes (an
error returns a nil channel, modelled as none); the first container
family whose trigger matches gets the scan (default hit, or a closed
empty channel when the reader fails, or a running scan); if no trigger
matches return nil. -/
def matcherIdentify (m : List CMEntry) (sliceRes : Except Unit Bytes) (n : String) :
    Option IdOutcome :=
  match sliceRes with
  | .error _ => none
  | .ok buf =>
    match m.find? (fun c => c.trigger buf) with
    | none => none
    | some c =>
      let dm := defaultMatch c n
      if dm.1 then some (.defaultHitOut dm.2)
      else if ¬ c.rdrOk then some .closedEmpty
      else some .scanStarted

/-! ## Byte-matcher tally (pkg/core/bytematcher/tally.go)

filterHits is a goroutine consuming key-frame hits; sendResult sends one
result then receives one wait list from the feedback channel.  It is
modelled as a fold over the incoming hit events producing the trace of
result emissions and wait-list reads.  applyKeyFrame (the scorer's offset
verification, in a file not under src/) is abstracted as a per-event
success flag carried on the event. -/

/-- A key-frame hit event as seen by filterHits: the signature index
(hit.id[0]) and whether applyKeyFrame accepts the hit. -/
structure TEvent where
  sigId : Nat
  success : Bool

/-- The observable channel actions of the tally loop. -/
inductive BMEvent where
  | emit (r : Nat)
  | readWait (w : List Nat)
deriving DecidableEq

/-- The tally state that the claims depend on. -/
structure TallyState where
  satisfied : Bool
  waitList : Option (List Nat)

/-- filterHits (tally.go lines 91-119) with sendResult inlined: the
feedback channel is modelled as the supply function, consumed in order
starting at index k.  Each accepted hit emits a result then reads one
wait list; an empty wait list sets satisfied, after which no hit can emit. -/
def filterRun (supply : Nat → List Nat) :
    List TEvent → TallyState → Nat → List BMEvent
  | [], _, _ => []
  | e :: rest, st, k =>
    if st.satisfied then filterRun supply rest st k
    else if ¬ checkWaitL st.waitList e.sigId then filterRun supply rest st k
    else if e.success then
      let w := supply k
      if w.length = 0 then
        .emit e.sigId :: .readWait w :: filterRun supply rest { st with satisfied := true } (k + 1)
      else
        .emit e.sigId :: .readWait w ::
          filterRun supply rest { satisfied := st.satisfied, waitList := some w } (k + 1)
    else filterRun supply rest st k

/-- The priority protocol on a trace: every emission is immediately
followed by exactly one wait-list read, and after an empty wait list has
been read (or once stopped) nothing further is emitted. -/
def okTrace : Bool → List BMEvent → Bool
  | _, [] => true
  | stopped, .emit _ :: rest =>
    if stopped then false
    else
      match rest with
      | .readWait w :: rest2 => okTrace (w.length = 0) rest2
      | _ => false
  | _, .readWait _ :: _ => false

/-! ## Key-frame position compilation (process package, updatePositions) -/

/-- frames.OffType: the four anchors. -/
inductive OffType where
  | bof | prevO | succO | eof
deriving DecidableEq

/-- keyFramePos: min/max offset and min/max length (int64/int in Go;
PMax = -1 means unbounded). -/
structure KeyFramePos where
  pMin : Int
  pMax : Int
  lMin : Int
  lMax : Int
deriving DecidableEq

/-- keyFrame: anchor type, segment-relative position, absolute position. -/
structure KeyFrame where
  typ : OffType
  seg : KeyFramePos
  key : KeyFramePos
deriving DecidableEq

/-- calcMinMax (process): advance the running min/max by a segment's
offsets and lengths; a negative max anywhere makes the max unbounded. -/
def calcMinMax (mn mx : Int) (sp : KeyFramePos) : Int × Int :=
  let mn1 := mn + sp.pMin + sp.lMin
  if mx < 0 ∨ sp.pMax < 0 then (mn1, -1)
  else (mn1, mx + sp.pMax + sp.lMax)

/-- The max-BOF / max-EOF cap from updatePositions: applied only when the
cap is positive; an unbounded or over-cap PMax becomes the cap. -/
def clampPMax (cap : Int) (kp : KeyFramePos) : KeyFramePos :=
  if cap > 0 ∧ (kp.pMax < 0 ∨ kp.pMax > cap) then { kp with pMax := cap } else kp

/-- The forward loop of updatePositions over BOF and PREV key frames,
carrying the running (min, max). -/
def forwardPass (maxB : Int) (mn mx : Int) : List KeyFrame → List KeyFrame
  | [] => []
  | k :: rest =>
    match k.typ with
    | .bof =>
      let nmm := calcMinMax 0 0 k.seg
      let k1 : KeyFrame := { k with key := clampPMax maxB k.key }
      k1 :: forwardPass maxB nmm.1 nmm.2 rest
    | .prevO =>
      let newPMin := mn + k.key.pMin
      let newPMax := if mx > -1 ∧ k.key.pMax > -1 then mx + k.key.pMax else -1
      let nmm := calcMinMax mn mx k.seg
      let k1 : KeyFrame :=
        { k with key := clampPMax maxB { k.key with pMin := newPMin, pMax := newPMax } }
      k1 :: forwardPass maxB nmm.1 nmm.2 rest
    | _ => k :: forwardPass maxB mn mx rest

/-- The backward loop of updatePositions over EOF and SUCC key frames;
it walks the signature from the end, so it is applied to the reversed
list. -/
def backwardPass (maxE : Int) (mn mx : Int) : List KeyFrame → List KeyFrame
  | [] => []
  | k :: rest =>
    match k.typ with
    | .eof =>
      let nmm := calcMinMax 0 0 k.seg
      let k1 : KeyFrame := { k with key := clampPMax maxE k.key }
      k1 :: backwardPass maxE nmm.1 nmm.2 rest
    | .succO =>
      let newPMin := mn + k.key.pMin
      let newPMax := if mx > -1 ∧ k.key.pMax > -1 then mx + k.key.pMax else -1
      let nmm := calcMinMax mn mx k.seg
      let k1 : KeyFrame :=
        { k with key := clampPMax maxE { k.key with pMin := newPMin, pMax := newPMax } }
      k1 :: backwardPass maxE nmm.1 nmm.2 rest
    | _ => k :: backwardPass maxE mn mx rest

/-- updatePositions (process): the forward pass then the backward pass
(the Go code iterates the same slice forwards then backwards; the
backward iteration is the forward recursion on the reversed list). -/
def updatePositions (maxB maxE : Int) (ks : List KeyFrame) : List KeyFrame :=
  (backwardPass maxE 0 0 (forwardPass maxB 0 0 ks).reverse).reverse

/-- The forward loop with the max-BOF cap removed (what updatePositions
does when config.MaxBOF() is zero). -/
def forwardPassNoCap (mn mx : Int) : List KeyFrame → List KeyFrame
  | [] => []
  | k :: rest =>
    match k.typ with
    | .bof =>
      let nmm := calcMinMax 0 0 k.seg
      k :: forwardPassNoCap nmm.1 nmm.2 rest
    | .prevO =>
      let newPMin := mn + k.key.pMin
      let newPMax := if mx > -1 ∧ k.key.pMax > -1 then mx + k.key.pMax else -1
      let nmm := calcMinMax mn mx k.seg
      let k1 : KeyFrame := { k with key := { k.key with pMin := newPMin, pMax := newPMax } }
      k1 :: forwardPassNoCap nmm.1 nmm.2 rest
    | _ => k :: forwardPassNoCap mn mx rest

/-- The backward loop with the max-EOF cap removed. -/
def backwardPassNoCap (mn mx : Int) : List KeyFrame → List KeyFrame
  | [] => []
  | k :: rest =>
    match k.typ with
    | .eof =>
      let nmm := calcMinMax 0 0 k.seg
      k :: backwardPassNoCap nmm.1 nmm.2 rest
    | .succO =>
      let newPMin := mn + k.key.pMin
      let newPMax := if mx > -1 ∧ k.key.pMax > -1 then mx + k.key.pMax else -1
      let nmm := calcMinMax mn mx k.seg
      let k1 : KeyFrame := { k with key := { k.key with pMin := newPMin, pMax := newPMax } }
      k1 :: backwardPassNoCap nmm.1 nmm.2 rest
    | _ => k :: backwardPassNoCap mn mx rest

/-! ## Siegreader SmallFile.EofSlice -/

/-- The siegreader error values returned by slice calls. -/
inductive SfErr where
  | errQuit
  | ioEOF
deriving DecidableEq

/-- The SmallFile state that EofSlice reads: whether the quit channel has
been closed, the tail buffer, the main buffer, the size, and whether the
completec channel has been closed (the stream fully read). -/
structure SmallFileS where
  quitClosed : Bool
  eof : Bytes
  buf : Bytes
  sz : Nat
  complete : Bool
deriving DecidableEq

/-- SmallFile.EofSlice as written (part_005 lines 207-234).  The function
opens with a select on the quit channel alone, with no default case and no
other channel: in Go such a select blocks until quit is closed and then
returns ErrQuit, so the remainder of the function is unreachable.  none
models the blocked call. -/
def eofSlice (b : SmallFileS) (_s _l : Nat) : Option (Bytes × Option SfErr) :=
  if b.quitClosed then some ([], some .errQuit) else none

/-- The common tail arithmetic of EofSlice: buf[len-(s+l) : len-s], with
io.EOF and a shortened slice when the request overruns the buffer. -/
def eofSliceTail (buf : Bytes) (s l : Nat) : Option (Bytes × Option SfErr) :=
  if s + l > buf.length then
    if s > buf.length then some ([], some .ioEOF)
    else some (buf.take (buf.length - s), some .ioEOF)
  else some ((buf.drop (buf.length - (s + l))).take l, none)

/-- The remainder of EofSlice after the opening select (dead code in the
source): pick the tail buffer when the request fits in it, otherwise wait
on quit/completec and use the full buffer; slice counting back from the
end, returning io.EOF on truncated reads. -/
def eofSliceBody (b : SmallFileS) (s l : Nat) : Option (Bytes × Option SfErr) :=
  let viaEof := b.eof.length > 0 ∧ s + l ≤ b.eof.length
  if viaEof then
    eofSliceTail (b.eof) s l
  else if b.quitClosed then some ([], some .errQuit)
  else if ¬ b.complete then none
  else
    let buf := b.buf.take b.sz
    if s + l = buf.length then some (buf.take (buf.length - s), some .ioEOF)
    else eofSliceTail buf s l

/-! ## Specification-side helper functions -/

/-- The lengths returned by the succeeding children of a choice (the set
the claim's maximum ranges over). -/
def succLens (rev : Bool) (b : Bytes) (ps : List Pattern) : List Nat :=
  ps.filterMap (fun p => if (testG rev p b).1 then some (testG rev p b).2 else none)

/-- The skip distances returned by the failing children of a choice. -/
def failLens (rev : Bool) (b : Bytes) (ps : List Pattern) : List Nat :=
  ps.filterMap (fun p => if (testG rev p b).1 then none else some (testG rev p b).2)

/-- The signature a container result reports: the id of its first hit
(Nat form of resIndex for non-empty results). -/
def sigHd (r : List Hit) : Nat := (r.headD ⟨0, "", ""⟩).id

/-- The payload of a phLoop outcome, whichever way the loop ended. -/
def phOut : Sum (CMState × List (List Hit)) (CMState × List (List Hit)) → List (List Hit)
  | .inl pr => pr.2
  | .inr pr => pr.2

/-- The state of a phLoop outcome, whichever way the loop ended. -/
def phSt : Sum (CMState × List (List Hit)) (CMState × List (List Hit)) → CMState
  | .inl pr => pr.1
  | .inr pr => pr.1

/-- Well-formed recorded parts: every hit filed under index i carries
signature id i (true of every reachable scan state; partsMatched starts
empty and addPart files hits under their own id). -/
def wfParts (pm : List (List Hit)) : Prop :=
  ∀ i : Nat, ∀ hh ∈ pm.getD i [], hh.id = i

/-! ## Concrete instances used by counterexamples and witnesses -/

/-- A default key frame for list indexing in the witness. -/
def kfDefault : KeyFrame := ⟨.bof, ⟨0, 0, 0, 0⟩, ⟨0, 0, 0, 0⟩⟩

/-- A signature with an unbounded BOF key frame and an EOF key frame at
offset up to 100. -/
def ksEx : List KeyFrame :=
  [⟨.bof, ⟨0, -1, 4, 4⟩, ⟨0, -1, 4, 4⟩⟩, ⟨.eof, ⟨0, 100, 2, 2⟩, ⟨0, 100, 2, 2⟩⟩]


/-- A SmallFile over a fully-read 3-byte file, quit channel open. -/
def sfGood : SmallFileS := ⟨false, [], [10, 20, 30], 3, true⟩

/-- The same state after the quit channel has been closed. -/
def sfQuit : SmallFileS := ⟨true, [], [10, 20, 30], 3, true⟩

/-- Two one-part container signatures (both name-only). -/
def cmP : List Nat := [1, 1]

/-- Priorities: a hit on signature 0 leaves only signature 0 wanted. -/
def cmPrios : List (List Nat) := [[0], []]

/-- The entry's ctest: both signatures satisfied by the name alone. -/
def cmCt : CTest := ⟨[0, 1], []⟩

/-- A fresh container scan state for two signatures. -/
def cmSt0 : CMState := ⟨[[], []], [false, false], none⟩

/-- The hits of one entry: one part hit for each signature. -/
def cmHits : List Hit := [⟨0, "n", "name only"⟩, ⟨1, "n", "name only"⟩]

/-- A recorder with no candidates (for the Report UNKNOWN branch). -/
def rEmpty : PRecorder :=
  ⟨"pronom", [], 0, false, false, false, false, [], [], [], [], false, 3⟩

/-- A recorder whose candidates are the text format plus one other format,
with no byte or container score: Satisfied declines here, although the
text format is not the only candidate. -/
def rTextPlus : PRecorder :=
  ⟨"pronom",
    [⟨"pronom", textPuid, "Plain Text", "", "text/plain", ["extension match"], "", 0, 1⟩,
     ⟨"pronom", "fmt/1", "fmt one", "", "", ["extension match"], "", 0, 1⟩],
    0, false, true, false, false, [], [], [], [], false, 3⟩

/-! ## Theorems -/

/-- Replacing a list of attached elements by their values does not change
an all over its zip with another list. -/
theorem zip_all_val {α : Type} (l : List α) (f : α → α → Bool)
    (ls : List {x // x ∈ l}) (l2 : List α) :
    ((ls.zip l2).all fun pr => f pr.1.1 pr.2) =
      (((ls.map Subtype.val).zip l2).all fun pr => f pr.1 pr.2) := by
  induction ls generalizing l2 with
  | nil => simp
  | cons a ls ih =>
    cases l2 with
    | nil => simp
    | cons b l2 => simp [ih]

/-- The element-wise check inside List.Equals, expressed over the plain
zip of the two element lists. -/
theorem patEquals_plist_zip (l l2 : List Pattern) :
    ((l.attach.zip l2).all fun pr => patEquals pr.1.1 pr.2) =
      ((l.zip l2).all fun pr => patEquals pr.1 pr.2) := by
  have h := zip_all_val l patEquals l.attach l2
  rwa [List.attach_map_subtype_val] at h

/-- C9.  List.Equals (patterns.go lines 322-334) returns false exactly
when the other pattern is a List of the same length with some element not
equal to the corresponding element; in every other case (not a List, or a
List of a different length, or all elements equal) it returns true. -/
theorem list_equals_characterization (l : List Pattern) (pat : Pattern) :
    patEquals (.plist l) pat = false ↔
      ∃ l2, pat = Pattern.plist l2 ∧ l.length = l2.length ∧
        ∃ pr ∈ l.zip l2, patEquals pr.1 pr.2 = false := by
  cases pat with
  | plist l2 =>
    by_cases hlen : l.length = l2.length
    · have hunf : patEquals (.plist l) (.plist l2) =
          ((l.zip l2).all fun pr => patEquals pr.1 pr.2) := by
        simp only [patEquals]
        rw [if_pos hlen, patEquals_plist_zip]
      constructor
      · intro hfalse
        rw [hunf] at hfalse
        refine ⟨l2, rfl, hlen, ?_⟩
        by_contra hall
        push_neg at hall
        have hT : ((l.zip l2).all fun pr => patEquals pr.1 pr.2) = true := by
          rw [List.all_eq_true]
          intro x hx
          have hx2 := hall x hx
          simpa using hx2
        rw [hT] at hfalse
        exact absurd hfalse (by simp)
      · rintro ⟨l2x, heq, _, pr, hmem, hne⟩
        injection heq with h12
        subst h12
        rw [hunf, Bool.eq_false_iff]
        intro hall
        rw [List.all_eq_true] at hall
        have h3 := hall pr hmem
        rw [hne] at h3
        exact absurd h3 (by simp)
    · have hunf : patEquals (.plist l) (.plist l2) = true := by
        simp only [patEquals]
        rw [if_neg hlen]
      constructor
      · intro h
        rw [hunf] at h
        exact absurd h (by simp)
      · rintro ⟨l2x, heq, hlen2, _⟩
        injection heq with h12
        subst h12
        exact absurd hlen2 hlen
  | sequence s => simp [patEquals]
  | choice ps => simp [patEquals]
  | pnot p => simp [patEquals]
  | range lo hi => simp [patEquals]
  | mask m => simp [patEquals]
  | anyMask m => simp [patEquals]

/-- C8.  When Report is called with no candidates, exactly one
identification is emitted: format id UNKNOWN with warning "no match". -/
theorem report_unknown_no_match (r : PRecorder) (h : r.ids = []) :
    report r = [unknownNoMatch r.rname] ∧
      (unknownNoMatch r.rname).ID = "UNKNOWN" ∧
      (unknownNoMatch r.rname).warning = "no match" := by
  refine ⟨?_, rfl, rfl⟩
  simp [report, h]

/-- C8 witness: the empty recorder reports the single UNKNOWN / no match
identification. -/
theorem report_unknown_no_match_witness :
    report rEmpty = [unknownNoMatch "pronom"] :=
  (report_unknown_no_match rEmpty rfl).1

/-- C2.  EofSlice as written opens with a one-case select on the quit
channel (no default), so the call blocks until cancellation and then
returns ErrQuit: it never returns data, even when the requested tail
bytes are available (sfGood: a fully-read 3-byte file).  The unreachable
remainder of the function (eofSliceBody) would return the requested tail
slice, as the function's own doc comment promises. -/
theorem eofSlice_blocks_until_quit :
    (∀ b s l, eofSlice b s l = none ∨ eofSlice b s l = some ([], some SfErr.errQuit))
    ∧ eofSlice sfGood 0 1 = none
    ∧ eofSlice sfQuit 0 1 = some ([], some SfErr.errQuit)
    ∧ eofSliceBody sfGood 0 1 = some ([30], none) := by
  refine ⟨?_, rfl, rfl, by decide⟩
  intro b s l
  by_cases h : b.quitClosed
  · right; simp [eofSlice, h]
  · left; simp [eofSlice, h]

/-- C10.  The container Matcher.Identify returns a nil channel exactly
when the initial 8-byte slice fails or no container trigger matches it; a
channel (possibly an immediately closed one) is returned only when some
trigger matches. -/
theorem matcherIdentify_nil_characterization (m : List CMEntry)
    (sr : Except Unit Bytes) (n : String) :
    matcherIdentify m sr n = none ↔
      (∃ e, sr = .error e) ∨ ∃ buf, sr = .ok buf ∧ ∀ c ∈ m, c.trigger buf = false := by
  cases sr with
  | error e => simp [matcherIdentify]
  | ok buf =>
    simp only [matcherIdentify]
    cases hf : m.find? (fun c => c.trigger buf) with
    | none =>
      simp only [List.find?_eq_none] at hf
      constructor
      · intro _
        exact Or.inr ⟨buf, rfl, fun c hc => by simpa using hf c hc⟩
      · intro _; rfl
    | some c =>
      have hmem := List.mem_of_find?_eq_some hf
      have htrig : c.trigger buf = true := by
        have := List.find?_some hf
        simpa using this
      constructor
      · intro hnone
        by_cases hdm : (defaultMatch c n).1 <;> simp [hdm] at hnone
        by_cases hr : c.rdrOk <;> simp [hr] at hnone
      · rintro (⟨e, he⟩ | ⟨buf2, hb, hall⟩)
        · exact absurd he (by simp)
        · cases hb
          exact absurd htrig (by simp [hall c hmem])

/-- C1 counterexample.  With no byte/container score, candidates = the
text format plus fmt/1, and the name matcher finishing, Satisfied returns
false although the finishing matcher is neither byte nor XML, candidates
exist, and the text format is not the only candidate — the claim predicts
true here.  The Go loop declines whenever ANY candidate is the text
format. -/
theorem pronom_satisfied_only_text_counterexample :
    (satisfiedR rTextPlus .nameM).2.1 = false
    ∧ rTextPlus.cscore < incScore
    ∧ MatcherType.nameM ≠ .byteM ∧ MatcherType.nameM ≠ .xmlM
    ∧ rTextPlus.ids ≠ []
    ∧ ¬ (∀ v ∈ rTextPlus.ids, v.ID = textPuid) := by
  refine ⟨rfl, by decide, by decide, by decide, by decide, ?_⟩
  intro hall
  have h2 := hall (rTextPlus.ids.getD 1 (unknownNoMatch "")) (by decide)
  revert h2
  decide

/-- C1 amended.  With no byte/container match yet, Satisfied returns
false exactly when the finishing matcher is the byte or XML matcher, or
no candidates have been gathered, or SOME candidate is the text format;
otherwise it sets the satisfied flag and returns true, with the
byte-matcher start index when the finishing matcher is the byte matcher. -/
theorem pronom_satisfied_characterization (r : PRecorder) (mt : MatcherType) :
    ((satisfiedR r mt).2.1 = false ↔
      r.cscore < incScore ∧
        (mt = .byteM ∨ mt = .xmlM ∨ r.ids = [] ∨ ∃ v ∈ r.ids, v.ID = textPuid))
    ∧ ((satisfiedR r mt).2.1 = true →
        (satisfiedR r mt).1.satisfied = true ∧
        (satisfiedR r mt).2.2 = (if mt = .byteM then r.start else 0)) := by
  by_cases hc : r.cscore < incScore ∧
      (mt = .byteM ∨ mt = .xmlM ∨ r.ids.length = 0 ∨
        r.ids.any (fun v => v.ID = textPuid))
  · have hres : satisfiedR r mt = (r, false, 0) := by
      rw [satisfiedR, if_pos hc]
    refine ⟨?_, ?_⟩
    · rw [hres]
      simp only [true_iff]
      refine ⟨hc.1, ?_⟩
      rcases hc.2 with h | h | h | h
      · exact Or.inl h
      · exact Or.inr (Or.inl h)
      · exact Or.inr (Or.inr (Or.inl (List.length_eq_zero.mp h)))
      · refine Or.inr (Or.inr (Or.inr ?_))
        rw [List.any_eq_true] at h
        obtain ⟨v, hv, hvid⟩ := h
        exact ⟨v, hv, by simpa using hvid⟩
    · intro htrue
      rw [hres] at htrue
      exact absurd htrue (by simp)
  · have hres : satisfiedR r mt =
        ({ r with satisfied := true }, true, if mt = .byteM then r.start else 0) := by
      rw [satisfiedR, if_neg hc]
    rw [hres]
    refine ⟨⟨fun h => absurd h (by simp), fun hcond => ?_⟩, fun _ => ⟨rfl, rfl⟩⟩
    exfalso
    apply hc
    refine ⟨hcond.1, ?_⟩
    rcases hcond.2 with h | h | h | h
    · exact Or.inl h
    · exact Or.inr (Or.inl h)
    · exact Or.inr (Or.inr (Or.inl (by simp [h])))
    · refine Or.inr (Or.inr (Or.inr ?_))
      rw [List.any_eq_true]
      obtain ⟨v, hv, hvid⟩ := h
      exact ⟨v, hv, by simpa using hvid⟩

/-- C1 witness: at the counterexample recorder the characterization
evaluates concretely (false is returned because a text candidate is
present), and on a recorder with a container score Satisfied succeeds
and returns the byte-matcher start index. -/
theorem pronom_satisfied_characterization_witness :
    (satisfiedR rTextPlus .nameM).2.1 = false ∧
    (satisfiedR { rTextPlus with cscore := 8 } .byteM).2.2 = 3 := by
  constructor
  · exact (pronom_satisfied_characterization rTextPlus .nameM).1.mpr
      (by
        refine ⟨by decide, Or.inr (Or.inr (Or.inr ?_))⟩
        exact ⟨rTextPlus.ids.getD 0 (unknownNoMatch ""), by decide, by decide⟩)
  · have h := (pronom_satisfied_characterization { rTextPlus with cscore := 8 } .byteM).2
    have htrue : (satisfiedR { rTextPlus with cscore := 8 } .byteM).2.1 = true := by decide
    have h2 := (h htrue).2
    rw [h2]
    decide

/-- A positive cap bounds the clamped PMax. -/
theorem clampPMax_le (cap : Int) (kp : KeyFramePos) (h : 0 < cap) :
    (clampPMax cap kp).pMax ≤ cap := by
  unfold clampPMax
  by_cases hc : cap > 0 ∧ (kp.pMax < 0 ∨ kp.pMax > cap)
  · rw [if_pos hc]
  · rw [if_neg hc]
    push_neg at hc
    exact (hc (by omega)).2

/-- A zero cap leaves the position unchanged. -/
theorem clampPMax_zero (kp : KeyFramePos) : clampPMax 0 kp = kp := by
  unfold clampPMax
  simp

/-- Every BOF or PREV frame coming out of the forward pass has PMax at
most the (positive) BOF cap. -/
theorem forwardPass_clamp (maxB : Int) (h : 0 < maxB) :
    ∀ (mn mx : Int) (ks : List KeyFrame), ∀ k ∈ forwardPass maxB mn mx ks,
      k.typ = .bof ∨ k.typ = .prevO → k.key.pMax ≤ maxB := by
  intro mn mx ks
  induction ks generalizing mn mx with
  | nil => intro k hk; simp [forwardPass] at hk
  | cons k0 rest ih =>
    intro k hk htyp
    cases ht : k0.typ with
    | bof =>
      rw [forwardPass, ht] at hk
      rcases List.mem_cons.mp hk with h1 | h1
      · subst h1; exact clampPMax_le maxB k0.key h
      · exact ih _ _ k h1 htyp
    | prevO =>
      rw [forwardPass, ht] at hk
      rcases List.mem_cons.mp hk with h1 | h1
      · subst h1; exact clampPMax_le maxB _ h
      · exact ih _ _ k h1 htyp
    | succO =>
      rw [forwardPass, ht] at hk
      rcases List.mem_cons.mp hk with h1 | h1
      · subst h1; rcases htyp with h2 | h2 <;> rw [ht] at h2 <;> cases h2
      · exact ih _ _ k h1 htyp
    | eof =>
      rw [forwardPass, ht] at hk
      rcases List.mem_cons.mp hk with h1 | h1
      · subst h1; rcases htyp with h2 | h2 <;> rw [ht] at h2 <;> cases h2
      · exact ih _ _ k h1 htyp

/-- Every EOF or SUCC frame coming out of the backward pass has PMax at
most the (positive) EOF cap. -/
theorem backwardPass_clamp (maxE : Int) (h : 0 < maxE) :
    ∀ (mn mx : Int) (ks : List KeyFrame), ∀ k ∈ backwardPass maxE mn mx ks,
      k.typ = .eof ∨ k.typ = .succO → k.key.pMax ≤ maxE := by
  intro mn mx ks
  induction ks generalizing mn mx with
  | nil => intro k hk; simp [backwardPass] at hk
  | cons k0 rest ih =>
    intro k hk htyp
    cases ht : k0.typ with
    | eof =>
      rw [backwardPass, ht] at hk
      rcases List.mem_cons.mp hk with h1 | h1
      · subst h1; exact clampPMax_le maxE k0.key h
      · exact ih _ _ k h1 htyp
    | succO =>
      rw [backwardPass, ht] at hk
      rcases List.mem_cons.mp hk with h1 | h1
      · subst h1; exact clampPMax_le maxE _ h
      · exact ih _ _ k h1 htyp
    | bof =>
      rw [backwardPass, ht] at hk
      rcases List.mem_cons.mp hk with h1 | h1
      · subst h1; rcases htyp with h2 | h2 <;> rw [ht] at h2 <;> cases h2
      · exact ih _ _ k h1 htyp
    | prevO =>
      rw [backwardPass, ht] at hk
      rcases List.mem_cons.mp hk with h1 | h1
      · subst h1; rcases htyp with h2 | h2 <;> rw [ht] at h2 <;> cases h2
      · exact ih _ _ k h1 htyp

/-- The backward pass only rewrites EOF and SUCC frames: any BOF or PREV
frame of its output already occurs in its input. -/
theorem backwardPass_preserves_bof (maxE : Int) :
    ∀ (mn mx : Int) (ks : List KeyFrame), ∀ k ∈ backwardPass maxE mn mx ks,
      k.typ = .bof ∨ k.typ = .prevO → k ∈ ks := by
  intro mn mx ks
  induction ks generalizing mn mx with
  | nil => intro k hk; simp [backwardPass] at hk
  | cons k0 rest ih =>
    intro k hk htyp
    cases ht : k0.typ with
    | eof =>
      rw [backwardPass, ht] at hk
      rcases List.mem_cons.mp hk with h1 | h1
      · subst h1
        rcases htyp with h2 | h2 <;> simp [ht] at h2
      · exact List.mem_cons_of_mem _ (ih _ _ k h1 htyp)
    | succO =>
      rw [backwardPass, ht] at hk
      rcases List.mem_cons.mp hk with h1 | h1
      · subst h1
        rcases htyp with h2 | h2 <;> simp [ht] at h2
      · exact List.mem_cons_of_mem _ (ih _ _ k h1 htyp)
    | bof =>
      rw [backwardPass, ht] at hk
      rcases List.mem_cons.mp hk with h1 | h1
      · subst h1; exact List.mem_cons_self _ _
      · exact List.mem_cons_of_mem _ (ih _ _ k h1 htyp)
    | prevO =>
      rw [backwardPass, ht] at hk
      rcases List.mem_cons.mp hk with h1 | h1
      · subst h1; exact List.mem_cons_self _ _
      · exact List.mem_cons_of_mem _ (ih _ _ k h1 htyp)

/-- With a zero BOF cap the forward pass performs no clamping. -/
theorem forwardPass_zero (mn mx : Int) (ks : List KeyFrame) :
    forwardPass 0 mn mx ks = forwardPassNoCap mn mx ks := by
  induction ks generalizing mn mx with
  | nil => rfl
  | cons k0 rest ih =>
    cases ht : k0.typ <;>
      simp only [forwardPass, forwardPassNoCap, ht, clampPMax_zero, ih] <;>
      (try rw [← ht])

/-- With a zero EOF cap the backward pass performs no clamping. -/
theorem backwardPass_zero (mn mx : Int) (ks : List KeyFrame) :
    backwardPass 0 mn mx ks = backwardPassNoCap mn mx ks := by
  induction ks generalizing mn mx with
  | nil => rfl
  | cons k0 rest ih =>
    cases ht : k0.typ <;>
      simp only [backwardPass, backwardPassNoCap, ht, clampPMax_zero, ih] <;>
      (try rw [← ht])

/-- C5.  After updatePositions, every BOF/PREV key frame has
Key.PMax ≤ maxBOF and every EOF/SUCC key frame has Key.PMax ≤ maxEOF
whenever the respective cap is positive; a zero cap leaves the
corresponding pass unclamped (so PMax may remain -1 / unbounded). -/
theorem updatePositions_clamp (maxB maxE : Int) (ks : List KeyFrame) :
    (0 < maxB → ∀ k ∈ updatePositions maxB maxE ks,
        k.typ = .bof ∨ k.typ = .prevO → k.key.pMax ≤ maxB)
    ∧ (0 < maxE → ∀ k ∈ updatePositions maxB maxE ks,
        k.typ = .eof ∨ k.typ = .succO → k.key.pMax ≤ maxE)
    ∧ (maxB = 0 → updatePositions maxB maxE ks =
        (backwardPass maxE 0 0 (forwardPassNoCap 0 0 ks).reverse).reverse)
    ∧ (maxE = 0 → updatePositions maxB maxE ks =
        (backwardPassNoCap 0 0 (forwardPass maxB 0 0 ks).reverse).reverse) := by
  refine ⟨?_, ?_, ?_, ?_⟩
  · intro h k hk htyp
    rw [updatePositions, List.mem_reverse] at hk
    have h2 := backwardPass_preserves_bof maxE _ _ _ k hk htyp
    rw [List.mem_reverse] at h2
    exact forwardPass_clamp maxB h _ _ _ k h2 htyp
  · intro h k hk htyp
    rw [updatePositions, List.mem_reverse] at hk
    exact backwardPass_clamp maxE h _ _ _ k hk htyp
  · intro h
    rw [updatePositions, h, forwardPass_zero]
  · intro h
    rw [updatePositions, h, backwardPass_zero]

/-- C5 witness: with maxBOF = 5 and maxEOF = 7 the compiled frames of
ksEx are capped at 5 (the unbounded BOF frame) and 7 (the EOF frame). -/
theorem updatePositions_clamp_witness :
    ((updatePositions 5 7 ksEx).getD 0 kfDefault).key.pMax ≤ 5 ∧
    ((updatePositions 5 7 ksEx).getD 1 kfDefault).key.pMax ≤ 7 := by
  constructor
  · exact (updatePositions_clamp 5 7 ksEx).1 (by decide) _ (by decide) (by decide)
  · exact (updatePositions_clamp 5 7 ksEx).2.1 (by decide) _ (by decide) (by decide)

/-- The Go "if x > acc { acc = x }" update is a max. -/
theorem ite_gt_eq_max (a b : Nat) : (if b > a then b else a) = max a b := by
  by_cases h : b > a
  · simp [h, Nat.max_eq_right (Nat.le_of_lt h)]
  · simp [h, Nat.max_eq_left (Nat.le_of_not_lt h)]

/-- Folding over an attached list with a function that only uses the
values is folding over the plain list. -/
theorem attach_foldl {β : Type} (l : List Pattern) (g : β → Pattern → β) (init : β) :
    l.attach.foldl (fun acc pp => g acc pp.1) init = l.foldl g init := by
  conv_rhs => rw [← List.attach_map_subtype_val l]
  rw [List.foldl_map]

/-- The Choice.test loop computes: whether any child succeeded, the max
of the succeeding lengths, and the max of the failing skip distances. -/
theorem choiceFold_spec (rev : Bool) (b : Bytes) (ps : List Pattern) :
    ∀ (r : Bool) (tl fl : Nat),
      ps.foldl (fun acc p => choiceStep acc (testG rev p b)) (r, tl, fl) =
        (r || ps.any (fun p => (testG rev p b).1),
         (succLens rev b ps).foldl max tl,
         (failLens rev b ps).foldl max fl) := by
  induction ps with
  | nil => intro r tl fl; simp [succLens, failLens]
  | cons p ps ih =>
    intro r tl fl
    simp only [List.foldl_cons, List.any_cons]
    cases hp : testG rev p b with
    | mk res lgth =>
      cases res
      · rw [show choiceStep (r, tl, fl) (false, lgth) = (r, tl, max fl lgth) from by
            simp [choiceStep, ite_gt_eq_max],
          ih r tl (max fl lgth)]
        have hs : succLens rev b (p :: ps) = succLens rev b ps := by
          simp [succLens, List.filterMap_cons, hp]
        have hf : failLens rev b (p :: ps) = lgth :: failLens rev b ps := by
          simp [failLens, List.filterMap_cons, hp]
        rw [hs, hf, List.foldl_cons]
        simp
      · rw [show choiceStep (r, tl, fl) (true, lgth) = (true, max tl lgth, fl) from by
            simp [choiceStep, ite_gt_eq_max],
          ih true (max tl lgth) fl]
        have hs : succLens rev b (p :: ps) = lgth :: succLens rev b ps := by
          simp [succLens, List.filterMap_cons, hp]
        have hf : failLens rev b (p :: ps) = failLens rev b ps := by
          simp [failLens, List.filterMap_cons, hp]
        rw [hs, hf, List.foldl_cons]
        simp

/-- Choice.test / Choice.testR in closed form: success iff some child
succeeds; on success the longest success length, on failure the longest
failure skip. -/
theorem testG_choice (rev : Bool) (ps : List Pattern) (b : Bytes) :
    testG rev (.choice ps) b =
      (if ps.any (fun p => (testG rev p b).1)
       then (true, (succLens rev b ps).foldl max 0)
       else (false, (failLens rev b ps).foldl max 0)) := by
  simp only [testG]
  rw [attach_foldl ps (fun acc p => choiceStep acc (testG rev p b)) (false, 0, 0),
    choiceFold_spec rev b ps false 0 0]
  simp only [Bool.false_or]
  by_cases h : ps.any (fun p => (testG rev p b).1) <;> simp [h]

/-- The seed is below a max fold. -/
theorem foldl_max_init_le (l : List Nat) : ∀ a : Nat, a ≤ l.foldl max a := by
  induction l with
  | nil => intro a; exact Nat.le_refl a
  | cons x xs ih =>
    intro a
    exact Nat.le_trans (Nat.le_max_left a x) (ih (max a x))

/-- Every element is below a max fold. -/
theorem foldl_max_le (l : List Nat) : ∀ (a x : Nat), x ∈ l → x ≤ l.foldl max a := by
  induction l with
  | nil => intro a x hx; simp at hx
  | cons y ys ih =>
    intro a x hx
    rcases List.mem_cons.mp hx with h1 | h1
    · subst h1
      exact Nat.le_trans (Nat.le_max_right a x) (foldl_max_init_le ys (max a x))
    · exact ih (max a y) x h1

/-- A max fold is the seed or one of the elements. -/
theorem foldl_max_mem (l : List Nat) : ∀ a : Nat, l.foldl max a ∈ a :: l := by
  induction l with
  | nil => intro a; simp
  | cons y ys ih =>
    intro a
    rw [List.foldl_cons]
    rcases List.mem_cons.mp (ih (max a y)) with h1 | h1
    · rw [h1]
      rcases max_choice a y with h2 | h2 <;> rw [h2] <;> simp
    · simp [List.mem_cons_of_mem, h1]

/-- C6.  Choice longest match: whenever Choice.Test (or TestR, selected
by rev) succeeds on a buffer, the returned length is the maximum of the
lengths returned by the succeeding children (and some child succeeds). -/
theorem choice_longest_match (rev : Bool) (ps : List Pattern) (b : Bytes)
    (h : (testG rev (.choice ps) b).1 = true) :
    succLens rev b ps ≠ [] ∧
    (testG rev (.choice ps) b).2 ∈ succLens rev b ps ∧
    ∀ x ∈ succLens rev b ps, x ≤ (testG rev (.choice ps) b).2 := by
  rw [testG_choice] at h ⊢
  by_cases hany : ps.any (fun p => (testG rev p b).1)
  · rw [if_pos hany] at *
    simp only []
    obtain ⟨p, hp, hsucc⟩ := List.any_eq_true.mp hany
    have hmemL : (testG rev p b).2 ∈ succLens rev b ps := by
      rw [succLens, List.mem_filterMap]
      exact ⟨p, hp, by simp [hsucc]⟩
    have hne : succLens rev b ps ≠ [] := List.ne_nil_of_mem hmemL
    refine ⟨hne, ?_, fun x hx => foldl_max_le _ 0 x hx⟩
    rcases List.mem_cons.mp (foldl_max_mem (succLens rev b ps) 0) with h0 | hmem
    · obtain ⟨y, hy⟩ := List.exists_mem_of_ne_nil _ hne
      have hyle := foldl_max_le (succLens rev b ps) 0 y hy
      rw [h0] at hyle ⊢
      have : y = 0 := Nat.le_zero.mp hyle
      rw [← this]
      exact hy
    · exact hmem
  · rw [if_neg hany] at h
    exact absurd h (by simp)

/-- C6 witness: Choice [seq 01, seq 01 02] on buffer 01 02 03 succeeds
with length 2, which is in the succeeding-lengths list. -/
theorem choice_longest_match_witness :
    (testG false (Pattern.choice [.sequence [1], .sequence [1, 2]]) [1, 2, 3]).2 ∈
      succLens false [1, 2, 3] [.sequence [1], .sequence [1, 2]] :=
  (choice_longest_match false [.sequence [1], .sequence [1, 2]] [1, 2, 3]
    (by simp [testG_choice, testG])).2.1

/-- Recording a hit keeps the number of signature slots. -/
theorem addPart_length (st : CMState) (h : Hit) :
    (addPart st h).partsMatched.length = st.partsMatched.length := by
  simp [addPart]

/-- Recording a hit keeps the wait list. -/
theorem addPart_waitList (st : CMState) (h : Hit) :
    (addPart st h).waitList = st.waitList := rfl

/-- Recording an in-bounds hit appends it to its own signature's list. -/
theorem addPart_getD_self (st : CMState) (h : Hit)
    (hb : h.id < st.partsMatched.length) :
    (addPart st h).partsMatched.getD h.id [] = st.partsMatched.getD h.id [] ++ [h] := by
  simp [addPart, List.getD_eq_getElem?_getD, List.getElem?_set_self hb]

/-- Recording a hit leaves other signatures' lists unchanged. -/
theorem addPart_getD_ne (st : CMState) (h : Hit) (i : Nat) (hne : h.id ≠ i) :
    (addPart st h).partsMatched.getD i [] = st.partsMatched.getD i [] := by
  simp [addPart, List.getD_eq_getElem?_getD, List.getElem?_set_ne hne]

/-- Recording a hit preserves well-formedness of the parts store. -/
theorem wfParts_addPart (st : CMState) (h : Hit) (hwf : wfParts st.partsMatched) :
    wfParts (addPart st h).partsMatched := by
  intro i hh hmem
  by_cases hi : h.id = i
  · subst hi
    by_cases hb : h.id < st.partsMatched.length
    · rw [addPart_getD_self st h hb] at hmem
      rcases List.mem_append.mp hmem with h1 | h1
      · exact hwf h.id hh h1
      · simp at h1; rw [h1]
    · have : (addPart st h).partsMatched = st.partsMatched := by
        simp [addPart, List.set_eq_of_length_le (Nat.le_of_not_lt hb)]
      rw [this] at hmem
      exact hwf h.id hh hmem
  · rw [addPart_getD_ne st h i hi] at hmem
    exact hwf i hh hmem

/-- The result emitted for an in-bounds hit is non-empty and reports the
hit's own signature. -/
theorem sigHd_emitted (st : CMState) (h : Hit) (hwf : wfParts st.partsMatched)
    (hb : h.id < st.partsMatched.length) :
    (addPart st h).partsMatched.getD h.id [] ≠ [] ∧
    sigHd ((addPart st h).partsMatched.getD h.id []) = h.id := by
  rw [addPart_getD_self st h hb]
  cases hold : st.partsMatched.getD h.id [] with
  | nil => simp [sigHd]
  | cons o os =>
    refine ⟨by simp, ?_⟩
    have : o.id = h.id := hwf h.id o (by rw [hold]; exact List.mem_cons_self _ _)
    simp [sigHd, this]

/-- C4 helper: the tally loop trace obeys the protocol from any state. -/
theorem okTrace_filterRun (supply : Nat → List Nat) :
    ∀ (evs : List TEvent) (st : TallyState) (k : Nat),
      okTrace st.satisfied (filterRun supply evs st k) = true := by
  intro evs
  induction evs with
  | nil => intro st k; rfl
  | cons e rest ih =>
    intro st k
    rw [filterRun]
    by_cases hs : st.satisfied
    · rw [if_pos hs]
      exact ih st k
    · rw [if_neg hs]
      by_cases hw : checkWaitL st.waitList e.sigId
      · rw [if_neg (by simp [hw])]
        by_cases hsucc : e.success
        · rw [if_pos hsucc]
          by_cases hlen : (supply k).length = 0
          · rw [if_pos hlen]
            have hb : st.satisfied = false := Bool.eq_false_iff.mpr hs
            simp only [hb, okTrace, if_false, Bool.false_eq_true]
            have h2 := ih { st with satisfied := true } (k + 1)
            simp only [show ({ st with satisfied := true } : TallyState).satisfied = true from rfl] at h2
            simpa [hlen] using h2
          · rw [if_neg hlen]
            have hb : st.satisfied = false := Bool.eq_false_iff.mpr hs
            simp only [hb, okTrace, if_false, Bool.false_eq_true]
            have h2 := ih ⟨st.satisfied, some (supply k)⟩ (k + 1)
            simp only [hb] at h2
            simpa [hlen] using h2
        · rw [if_neg hsucc]
          exact ih st k
      · rw [if_pos (by simp [hw])]
        exact ih st k

/-- C4 helper: structure of the emissions of the container hit loop under
priorities: while the loop runs, every emission so far had a non-empty
priority list; an emission with an empty priority list ends the loop at
once (early return true), as its last emission. -/
theorem phLoop_prio_struct (parts : List Nat) (pr : List (List Nat)) :
    ∀ (hits : List Hit) (st : CMState) (out : List (List Hit)),
      wfParts st.partsMatched →
      (∀ h ∈ hits, h.id < st.partsMatched.length) →
      (∀ r ∈ out, (pr.getD (sigHd r) []).length ≠ 0) →
      (match phLoop parts (some pr) hits st out with
       | .inl st1out => ∀ r ∈ st1out.2, (pr.getD (sigHd r) []).length ≠ 0
       | .inr st1out => st1out.2 ≠ [] ∧
           (pr.getD (sigHd (st1out.2.getLastD [])) []).length = 0 ∧
           ∀ r ∈ st1out.2.dropLast, (pr.getD (sigHd r) []).length ≠ 0) := by
  intro hits
  induction hits with
  | nil => intro st out _ _ hout; exact hout
  | cons h rest ih =>
    intro st out hwf hb hout
    have hbh : h.id < st.partsMatched.length := hb h (List.mem_cons_self _ _)
    have hwf1 := wfParts_addPart st h hwf
    have hb1 : ∀ x ∈ rest, x.id < (addPart st h).partsMatched.length := by
      intro x hx; rw [addPart_length]; exact hb x (List.mem_cons_of_mem _ hx)
    obtain ⟨hne, hsig⟩ := sigHd_emitted st h hwf hbh
    rw [phLoop]
    by_cases hc : ((addPart st h).partsMatched.getD h.id []).length = parts.getD h.id 0 ∧
        checkWaitL (addPart st h).waitList h.id
    · rw [if_pos hc]
      dsimp only
      by_cases hp : (pr.getD h.id []).length = 0
      · rw [if_pos hp]
        refine ⟨by simp, ?_, ?_⟩
        · rw [List.getLastD_concat, hsig]
          exact hp
        · rw [List.dropLast_concat]
          exact hout
      · rw [if_neg hp]
        have hout1 : ∀ r ∈ out ++ [(addPart st h).partsMatched.getD h.id []],
            (pr.getD (sigHd r) []).length ≠ 0 := by
          intro r hr
          rcases List.mem_append.mp hr with h1 | h1
          · exact hout r h1
          · simp only [List.mem_singleton] at h1
            rw [h1, hsig]
            exact hp
        exact ih _ _ hwf1 hb1 hout1
    · rw [if_neg hc]
      exact ih _ _ hwf1 hb1 hout

/-- C4 helper: after the container hit loop, either nothing was emitted
and the wait list is unchanged, or the wait list is the priority list of
the last emission. -/
theorem phLoop_waitlist (parts : List Nat) (pr : List (List Nat)) :
    ∀ (hits : List Hit) (st : CMState) (out : List (List Hit)),
      wfParts st.partsMatched →
      (∀ h ∈ hits, h.id < st.partsMatched.length) →
      (match phLoop parts (some pr) hits st out with
       | .inl st1out =>
           (st1out.2 = out ∧ st1out.1.waitList = st.waitList) ∨
           (st1out.2.length > out.length ∧
             st1out.1.waitList = some (pr.getD (sigHd (st1out.2.getLastD [])) []))
       | .inr _ => True) := by
  intro hits
  induction hits with
  | nil => intro st out _ _; exact Or.inl ⟨rfl, rfl⟩
  | cons h rest ih =>
    intro st out hwf hb
    have hbh : h.id < st.partsMatched.length := hb h (List.mem_cons_self _ _)
    have hwf1 := wfParts_addPart st h hwf
    have hb1 : ∀ x ∈ rest, x.id < (addPart st h).partsMatched.length := by
      intro x hx; rw [addPart_length]; exact hb x (List.mem_cons_of_mem _ hx)
    obtain ⟨hne, hsig⟩ := sigHd_emitted st h hwf hbh
    rw [phLoop]
    by_cases hc : ((addPart st h).partsMatched.getD h.id []).length = parts.getD h.id 0 ∧
        checkWaitL (addPart st h).waitList h.id
    · rw [if_pos hc]
      dsimp only
      by_cases hp : (pr.getD h.id []).length = 0
      · rw [if_pos hp]; trivial
      · rw [if_neg hp]
        have hres := ih (⟨(addPart st h).partsMatched, (addPart st h).ruledOut,
            some (pr.getD h.id [])⟩ : CMState)
          (out ++ [(addPart st h).partsMatched.getD h.id []]) hwf1
          (by intro x hx; exact hb1 x hx)
        cases hphl : phLoop parts (some pr) rest
            ⟨(addPart st h).partsMatched, (addPart st h).ruledOut, some (pr.getD h.id [])⟩
            (out ++ [(addPart st h).partsMatched.getD h.id []]) with
        | inl st1out =>
          rw [hphl] at hres
          rcases hres with ⟨he, hw⟩ | ⟨hl, hw⟩
          · refine Or.inr ⟨by rw [he]; simp, ?_⟩
            rw [hw, he, List.getLastD_concat, hsig]
          · refine Or.inr ⟨?_, hw⟩
            have hmid : out.length <
                (out ++ [(addPart st h).partsMatched.getD h.id []]).length := by simp
            exact Nat.lt_trans hmid hl
        | inr st1out => trivial
    · rw [if_neg hc]
      have hres := ih (addPart st h) out hwf1 hb1
      cases hphl : phLoop parts (some pr) rest (addPart st h) out with
      | inl st1out =>
        rw [hphl] at hres
        rcases hres with ⟨he, hw⟩ | ⟨hl, hw⟩
        · exact Or.inl ⟨he, by rw [hw, addPart_waitList]⟩
        · exact Or.inr ⟨hl, hw⟩
      | inr st1out => trivial

/-- Ruling out stale signatures does not touch the wait list. -/
theorem ruleOutStale_waitList (st : CMState) (ct : CTest) (nm : String) :
    (ruleOutStale st ct nm).waitList = st.waitList := rfl

/-- Splitting a non-empty list at its last element, with getLastD. -/
theorem dropLast_concat_getLastD {α : Type} (l : List α) (d : α) (h : l ≠ []) :
    l.dropLast ++ [l.getLastD d] = l := by
  have h2 := List.dropLast_append_getLast h
  rw [List.getLastD_eq_getLast?, List.getLast?_eq_getLast l h]
  simpa using h2

/-- C4.  The priority protocol.  Byte matcher: every emission of the
tally loop is immediately followed by reading exactly one wait list from
the feedback channel, and after an empty wait list is read nothing
further is emitted (okTrace).  Container matcher, scanning under a
priority table: every result emitted before the end of a processHits
call has a non-empty priority list installed as the new wait list; a
result whose priority list is empty is the last result emitted and makes
processHits return true (stop) at once. -/
theorem priority_protocol :
    (∀ (supply : Nat → List Nat) (evs : List TEvent) (st0 : TallyState) (k : Nat),
      okTrace st0.satisfied (filterRun supply evs st0 k) = true)
    ∧ (∀ (parts : List Nat) (pr : List (List Nat)) (ct : CTest) (nm : String)
        (st : CMState) (hits : List Hit),
        wfParts st.partsMatched →
        (∀ h ∈ hits, h.id < st.partsMatched.length) →
        ((∀ r ∈ (processHits parts (some pr) ct nm st hits).2.1.dropLast,
            (pr.getD (sigHd r) []).length ≠ 0)
         ∧ (∀ r ∈ (processHits parts (some pr) ct nm st hits).2.1,
              (pr.getD (sigHd r) []).length = 0 →
                (processHits parts (some pr) ct nm st hits).2.2 = true ∧
                r = (processHits parts (some pr) ct nm st hits).2.1.getLastD [])
         ∧ ((processHits parts (some pr) ct nm st hits).2.2 = false →
              (processHits parts (some pr) ct nm st hits).2.1 ≠ [] →
              (processHits parts (some pr) ct nm st hits).1.waitList =
                some (pr.getD
                  (sigHd ((processHits parts (some pr) ct nm st hits).2.1.getLastD [])) [])))) := by
  refine ⟨fun supply evs st0 k => okTrace_filterRun supply evs st0 k, ?_⟩
  intro parts pr ct nm st hits hwf hb
  by_cases hlen : hits.length = 0
  · have hres : processHits parts (some pr) ct nm st hits = (ruleOutAll st ct, [], false) := by
      rw [processHits, if_pos hlen]
    rw [hres]
    refine ⟨by simp, by simp, ?_⟩
    intro _ hne
    exact absurd rfl hne
  · have hA := phLoop_prio_struct parts pr hits st [] hwf hb (by simp)
    have hB := phLoop_waitlist parts pr hits st [] hwf hb
    cases hphl : phLoop parts (some pr) hits st [] with
    | inr st1out =>
      obtain ⟨st1, out1⟩ := st1out
      rw [hphl] at hA
      dsimp only at hA
      have hres : processHits parts (some pr) ct nm st hits = (st1, out1, true) := by
        rw [processHits, if_neg hlen, hphl]
      rw [hres]
      obtain ⟨hne, hlast, hdrop⟩ := hA
      refine ⟨hdrop, ?_, ?_⟩
      · intro r hr hzero
        refine ⟨rfl, ?_⟩
        have hsplit := dropLast_concat_getLastD out1 [] hne
        rw [← hsplit] at hr
        rcases List.mem_append.mp hr with h1 | h1
        · exact absurd hzero (hdrop r h1)
        · simpa using h1
      · intro hq
        exact absurd hq (by simp)
    | inl st1out =>
      obtain ⟨st1, out1⟩ := st1out
      rw [hphl] at hA hB
      dsimp only at hA hB
      have hdrop : ∀ r ∈ out1.dropLast, (pr.getD (sigHd r) []).length ≠ 0 :=
        fun r hr => hA r (List.mem_of_mem_dropLast hr)
      by_cases hlc : hits.length = ct.satisfied.length + ct.unsatisfied.length
      · have hres : processHits parts (some pr) ct nm st hits = (st1, out1, false) := by
          rw [processHits, if_neg hlen, hphl]
          dsimp only
          rw [if_pos hlc]
        rw [hres]
        refine ⟨hdrop, fun r hr hz => absurd hz (hA r hr), ?_⟩
        intro _ hne2
        rcases hB with ⟨he, _⟩ | ⟨_, hw⟩
        · exact absurd he hne2
        · exact hw
      · have hres : processHits parts (some pr) ct nm st hits =
            (ruleOutStale st1 ct nm, out1,
              ((ruleOutStale st1 ct nm).waitList.getD []).all
                (fun v => (ruleOutStale st1 ct nm).ruledOut.getD v false)) := by
          rw [processHits, if_neg hlen, hphl]
          dsimp only
          rw [if_neg hlc]
        rw [hres]
        refine ⟨hdrop, fun r hr hz => absurd hz (hA r hr), ?_⟩
        intro _ hne2
        rw [ruleOutStale_waitList]
        rcases hB with ⟨he, _⟩ | ⟨_, hw⟩
        · exact absurd he hne2
        · exact hw

/-- C4 witness: on a one-part container signature whose priority list is
empty, the single emitted result stops the scan (processHits returns
true). -/
theorem priority_protocol_witness :
    (processHits [1] (some [[]]) ⟨[0], []⟩ "e" ⟨[[]], [false], none⟩
      [⟨0, "e", "name only"⟩]).2.2 = true := by
  have h := priority_protocol.2 [1] [[]] ⟨[0], []⟩ "e" ⟨[[]], [false], none⟩
    [⟨0, "e", "name only"⟩]
    (by
      intro i hh hm
      match i with
      | 0 => simp at hm
      | _ + 1 => simp at hm)
    (by
      intro x hx
      simp only [List.mem_singleton] at hx
      rw [hx]
      decide)
  exact (h.2.1 [⟨0, "e", "name only"⟩] (by decide) (by decide)).1

/-- C3 counterexample.  Two one-part signatures, hits for both in one
entry.  The hit on signature 0 emits a result and installs priority list
[0]; the hit on signature 1 then brings signature 1's recorded part count
to its part count Parts[1] = 1, yet NO result for signature 1 is sent —
it fails the wait-list check installed by signature 0's emission.  The
claim's "exactly when the count reaches Parts[i]" is therefore false. -/
theorem processHits_count_counterexample :
    (processHits cmP (some cmPrios) cmCt "n" cmSt0 cmHits).2.1.map resIndex = [(0 : Int)]
    ∧ ((processHits cmP (some cmPrios) cmCt "n" cmSt0 cmHits).1.partsMatched.getD 1 []).length
        = cmP.getD 1 0 := by
  decide

/-- Hit counts as list lengths: getD commutes with the length map. -/
theorem counts_getD (pm : List (List Hit)) (i : Nat) :
    (pm.map List.length).getD i 0 = (pm.getD i []).length := by
  rw [List.getD_eq_getElem?_getD, List.getD_eq_getElem?_getD, List.getElem?_map]
  cases pm[i]? with
  | none => rfl
  | some x => rfl

/-- Recording a hit increments its signature's count (set form). -/
theorem counts_addPart (st : CMState) (h : Hit) :
    (addPart st h).partsMatched.map List.length =
      (st.partsMatched.map List.length).set h.id
        ((st.partsMatched.getD h.id []).length + 1) := by
  simp [addPart, List.map_set]

/-- A non-empty result's Index is its head signature. -/
theorem resIndex_eq_sigHd (r : List Hit) (h : r ≠ []) :
    resIndex r = (sigHd r : Int) := by
  cases r with
  | nil => exact absurd rfl h
  | cons x xs => rfl

/-- C3 helper: the emissions of the container hit loop refine the
count-based specification specEmits. -/
theorem phLoop_spec (parts : List Nat) (prios : Option (List (List Nat))) :
    ∀ (hits : List Hit) (st : CMState) (out : List (List Hit)),
      wfParts st.partsMatched →
      (∀ h ∈ hits, h.id < st.partsMatched.length) →
      (phOut (phLoop parts prios hits st out)).map resIndex =
        out.map resIndex ++
          (specEmits parts prios hits (st.partsMatched.map List.length) st.waitList).map
            (fun i => (i : Int)) := by
  intro hits
  induction hits with
  | nil => intro st out _ _; simp [phLoop, phOut, specEmits]
  | cons h rest ih =>
    intro st out hwf hb
    have hbh : h.id < st.partsMatched.length := hb h (List.mem_cons_self _ _)
    have hwf1 := wfParts_addPart st h hwf
    have hb1 : ∀ x ∈ rest, x.id < (addPart st h).partsMatched.length := by
      intro x hx; rw [addPart_length]; exact hb x (List.mem_cons_of_mem _ hx)
    obtain ⟨hne, hsig⟩ := sigHd_emitted st h hwf hbh
    have hcnt : ((st.partsMatched.map List.length).set h.id
          ((st.partsMatched.getD h.id []).length + 1)).getD h.id 0 =
        ((addPart st h).partsMatched.getD h.id []).length := by
      rw [← counts_addPart, counts_getD]
    have hcg : (st.partsMatched.map List.length).getD h.id 0 =
        (st.partsMatched.getD h.id []).length := counts_getD _ _
    rw [phLoop]
    conv_rhs => rw [specEmits.eq_def]
    dsimp only
    simp only [hcg]
    by_cases hc : ((addPart st h).partsMatched.getD h.id []).length = parts.getD h.id 0 ∧
        checkWaitL st.waitList h.id
    · have hcS : ((st.partsMatched.map List.length).set h.id
            ((st.partsMatched.getD h.id []).length + 1)).getD h.id 0 = parts.getD h.id 0 ∧
          checkWaitL st.waitList h.id := by
        rw [hcnt]; exact hc
      rw [if_pos (show ((addPart st h).partsMatched.getD h.id []).length = parts.getD h.id 0 ∧
          checkWaitL (addPart st h).waitList h.id from hc), if_pos hcS]
      have hresIdx : resIndex ((addPart st h).partsMatched.getD h.id []) = (h.id : Int) := by
        rw [resIndex_eq_sigHd _ hne, hsig]
      have hresIdx2 : resIndex ((addPart st h).partsMatched[h.id]?.getD []) = (h.id : Int) := by
        rw [← List.getD_eq_getElem?_getD]
        exact hresIdx
      cases prios with
      | none =>
        dsimp only
        rw [ih (addPart st h) (out ++ [(addPart st h).partsMatched.getD h.id []]) hwf1 hb1]
        rw [List.map_append, counts_addPart, addPart_waitList]
        simp [hresIdx, hresIdx2]
      | some pr =>
        dsimp only
        by_cases hp : (pr.getD h.id []).length = 0
        · rw [if_pos hp, if_pos hp]
          simp [phOut, List.map_append, hresIdx, hresIdx2]
        · rw [if_neg hp, if_neg hp]
          rw [ih (⟨(addPart st h).partsMatched, (addPart st h).ruledOut,
                some (pr.getD h.id [])⟩ : CMState)
              (out ++ [(addPart st h).partsMatched.getD h.id []]) hwf1
              (by intro x hx; exact hb1 x hx)]
          rw [List.map_append, counts_addPart]
          simp [hresIdx, hresIdx2]
    · have hcS : ¬ (((st.partsMatched.map List.length).set h.id
            ((st.partsMatched.getD h.id []).length + 1)).getD h.id 0 = parts.getD h.id 0 ∧
          checkWaitL st.waitList h.id) := by
        rw [hcnt]; exact hc
      rw [if_neg (show ¬ (((addPart st h).partsMatched.getD h.id []).length = parts.getD h.id 0 ∧
          checkWaitL (addPart st h).waitList h.id) from hc), if_neg hcS]
      rw [ih (addPart st h) out hwf1 hb1, counts_addPart, addPart_waitList]

/-- C3 helper: the per-entry byte-hit loop only adds hits whose signature
is not already hit in this entry: the added hits have pairwise distinct
signatures, none already present in the accumulated hits. -/
theorem byteHitLoop_dedup (st : CMState) (unsat : List Nat) (nm : String) :
    ∀ (brs : List (Nat × String)) (acc : List Hit),
      ∃ added, byteHitLoop st unsat nm brs acc = acc ++ added ∧
        (∀ hh ∈ added, hh.id ∉ acc.map Hit.id) ∧
        (added.map Hit.id).Nodup := by
  intro brs
  induction brs with
  | nil => intro acc; exact ⟨[], by simp [byteHitLoop], by simp, by simp⟩
  | cons br rest ih =>
    intro acc
    obtain ⟨idx, basis⟩ := br
    rw [byteHitLoop]
    by_cases hcond : checkWaitL st.waitList (unsat.getD idx 0) ∧
        checkHits acc (unsat.getD idx 0)
    · rw [if_pos hcond]
      obtain ⟨added', heq, hdisj, hnodup⟩ :=
        ih (acc ++ [⟨unsat.getD idx 0, nm, basis⟩])
      refine ⟨(⟨unsat.getD idx 0, nm, basis⟩ : Hit) :: added', ?_, ?_, ?_⟩
      · rw [heq, List.append_assoc]
        rfl
      · intro hh hmem
        rcases List.mem_cons.mp hmem with h1 | h1
        · subst h1
          intro hin
          obtain ⟨a, hain, haid⟩ := List.mem_map.mp hin
          have := List.all_eq_true.mp hcond.2 a hain
          simp only [haid] at this
          simp at this
        · intro hin
          have h2 := hdisj hh h1
          apply h2
          rw [List.map_append]
          exact List.mem_append.mpr (Or.inl hin)
      · rw [List.map_cons, List.nodup_cons]
        refine ⟨?_, hnodup⟩
        intro hin
        obtain ⟨a, hain, haid⟩ := List.mem_map.mp hin
        have h2 := hdisj a hain
        apply h2
        rw [List.map_append]
        refine List.mem_append.mpr (Or.inr ?_)
        simp [haid]
    · rw [if_neg hcond]
      exact ih acc

/-- C3 amended.  (i) During one scan of an entry's hits, the container
matcher sends a result for signature i exactly as described by the
count-based specification specEmits: when the recorded hit count for i
reaches Parts[i] AND i passes the wait list current at that moment (an
emitted signature's empty priority list stops the scan, a non-empty one
becomes the wait list).  (ii) Per entry, byte hits for the same signature
are deduplicated: the byte-hit loop never adds a signature already hit
for this entry. -/
theorem container_satisfaction_spec :
    (∀ (parts : List Nat) (prios : Option (List (List Nat))) (ct : CTest) (nm : String)
        (st : CMState) (hits : List Hit),
        wfParts st.partsMatched →
        (∀ h ∈ hits, h.id < st.partsMatched.length) →
        (processHits parts prios ct nm st hits).2.1.map resIndex =
          (specEmits parts prios hits (st.partsMatched.map List.length) st.waitList).map
            (fun i => (i : Int)))
    ∧ (∀ (st : CMState) (ct : CTest) (nm : String) (brs : List (Nat × String)),
        ∃ added,
          ctIdentify st ct nm brs =
            ((ct.satisfied.filter (checkWaitL st.waitList)).map
              (fun h => (⟨h, nm, "name only"⟩ : Hit))) ++ added ∧
          (∀ hh ∈ added, hh.id ∉
            (((ct.satisfied.filter (checkWaitL st.waitList)).map
              (fun h => (⟨h, nm, "name only"⟩ : Hit))).map Hit.id)) ∧
          (added.map Hit.id).Nodup) := by
  constructor
  · intro parts prios ct nm st hits hwf hb
    by_cases hlen : hits.length = 0
    · have hnil : hits = [] := List.length_eq_zero.mp hlen
      subst hnil
      rw [processHits]
      simp [specEmits]
    · have hspec := phLoop_spec parts prios hits st [] hwf hb
      rw [processHits, if_neg hlen]
      cases hphl : phLoop parts prios hits st [] with
      | inl st1out =>
        obtain ⟨st1, out1⟩ := st1out
        rw [hphl] at hspec
        simp only [phOut, List.map_nil, List.nil_append] at hspec
        dsimp only
        by_cases hlc : hits.length = ct.satisfied.length + ct.unsatisfied.length
        · rw [if_pos hlc]; exact hspec
        · rw [if_neg hlc]; exact hspec
      | inr st1out =>
        obtain ⟨st1, out1⟩ := st1out
        rw [hphl] at hspec
        simp only [phOut, List.map_nil, List.nil_append] at hspec
        exact hspec
  · intro st ct nm brs
    exact byteHitLoop_dedup st ct.unsatisfied nm brs _

/-- C3 witness: on the counterexample scenario the implementation's
emissions equal specEmits (only signature 0 is reported), and on an entry
with duplicate byte results for one signature only one hit is added. -/
theorem container_satisfaction_spec_witness :
    (processHits cmP (some cmPrios) cmCt "n" cmSt0 cmHits).2.1.map resIndex =
      (specEmits cmP (some cmPrios) cmHits (cmSt0.partsMatched.map List.length)
        cmSt0.waitList).map (fun i => (i : Int)) := by
  apply container_satisfaction_spec.1
  · intro i hh hm
    match i with
    | 0 => simp [cmSt0] at hm
    | 1 => simp [cmSt0] at hm
    | _ + 2 => simp [cmSt0] at hm
  · intro x hx
    rcases List.mem_cons.mp hx with h1 | h1
    · rw [h1]; decide
    · simp only [cmHits, List.mem_singleton] at h1
      rw [h1]; decide

/-- Unfolding save on a choice to a plain map. -/
theorem save_choice (ps : List Pattern) :
    save (.choice ps) =
      .pByte choiceLoader :: .pSmallInt ps.length :: (ps.map save).flatten := by
  rw [save]
  have h := List.attach_map_val ps save
  simp only [h]

/-- Unfolding save on a list pattern to a plain map. -/
theorem save_plist (ps : List Pattern) :
    save (.plist ps) =
      .pByte listLoader :: .pSmallInt ps.length :: (ps.map save).flatten := by
  rw [save]
  have h := List.attach_map_val ps save
  simp only [h]

/-- Unfolding pdepth on a choice to a plain fold. -/
theorem pdepth_choice (ps : List Pattern) :
    pdepth (.choice ps) = 1 + ps.foldl (fun m q => max m (pdepth q)) 0 := by
  rw [pdepth, attach_foldl ps (fun m q => max m (pdepth q)) 0]

/-- Unfolding pdepth on a list pattern to a plain fold. -/
theorem pdepth_plist (ps : List Pattern) :
    pdepth (.plist ps) = 1 + ps.foldl (fun m q => max m (pdepth q)) 0 := by
  rw [pdepth, attach_foldl ps (fun m q => max m (pdepth q)) 0]

/-- A member's depth is bounded by the children's depth fold. -/
theorem pdepth_mem_le (ps : List Pattern) (p : Pattern) (hp : p ∈ ps) :
    pdepth p ≤ ps.foldl (fun m q => max m (pdepth q)) 0 := by
  have h1 : ps.foldl (fun m q => max m (pdepth q)) 0 = (ps.map pdepth).foldl max 0 :=
    (List.foldl_map pdepth max ps 0).symm
  rw [h1]
  exact foldl_max_le _ 0 _ (List.mem_map.mpr ⟨p, hp, rfl⟩)

/-- Loading the consecutive saves of a list of patterns returns the list,
given that the loader is correct at this fuel for each member. -/
theorem loadMany_saves (fuel : Nat)
    (hload : ∀ (p : Pattern) (rest : List Prim),
      pdepth p ≤ fuel → loadP fuel (save p ++ rest) = some (p, rest)) :
    ∀ (ps : List Pattern) (rest : List Prim),
      (∀ p ∈ ps, pdepth p ≤ fuel) →
      loadMany fuel ps.length ((ps.map save).flatten ++ rest) = some (ps, rest) := by
  intro ps
  induction ps with
  | nil => intro rest _; simp [loadMany]
  | cons p ps ih =>
    intro rest hdep
    have h1 : ((p :: ps).map save).flatten ++ rest =
        save p ++ ((ps.map save).flatten ++ rest) := by
      simp [List.append_assoc]
    rw [List.length_cons, h1]
    simp only [loadMany,
      hload p ((ps.map save).flatten ++ rest) (hdep p (List.mem_cons_self _ _)),
      ih rest (fun q hq => hdep q (List.mem_cons_of_mem _ hq))]

/-- C7 helper: loading a saved pattern with fuel at least its nesting
depth returns the pattern itself, leaving the rest of the stream. -/
theorem loadP_save : ∀ (fuel : Nat) (p : Pattern) (rest : List Prim),
    pdepth p ≤ fuel → loadP fuel (save p ++ rest) = some (p, rest) := by
  intro fuel
  induction fuel with
  | zero =>
    intro p rest hdep
    exfalso
    cases p <;> simp [pdepth, pdepth_choice, pdepth_plist] at hdep
  | succ fuel ih =>
    intro p rest hdep
    cases p with
    | sequence s => simp [save, sequenceLoader, loadP]
    | choice ps =>
      rw [save_choice]
      have hdep2 : ∀ q ∈ ps, pdepth q ≤ fuel := by
        intro q hq
        have h1 := pdepth_mem_le ps q hq
        rw [pdepth_choice] at hdep
        omega
      simp only [List.cons_append, choiceLoader, loadP,
        loadMany_saves fuel ih ps rest hdep2]
      rfl
    | plist ps =>
      rw [save_plist]
      have hdep2 : ∀ q ∈ ps, pdepth q ≤ fuel := by
        intro q hq
        have h1 := pdepth_mem_le ps q hq
        rw [pdepth_plist] at hdep
        omega
      simp only [List.cons_append, listLoader, loadP,
        loadMany_saves fuel ih ps rest hdep2]
      rfl
    | pnot p =>
      have hdep2 : pdepth p ≤ fuel := by
        simp only [pdepth] at hdep
        omega
      simp only [save, notLoader, List.cons_append, loadP, ih p rest hdep2]
      rfl
    | range lo hi => simp [save, rangeLoader, loadP]
    | mask m => simp [save, maskLoader, loadP]
    | anyMask m => simp [save, anyMaskLoader, loadP]

/-- In the zip of a list with itself, the components of every pair agree. -/
theorem zip_self_eq {α : Type} (l : List α) : ∀ pr ∈ l.zip l, pr.1 = pr.2 := by
  induction l with
  | nil => intro pr hpr; simp at hpr
  | cons x xs ih =>
    intro pr hpr
    rcases List.mem_cons.mp hpr with h1 | h1
    · rw [h1]
    · exact ih pr h1

/-- C7 helper: Equals is reflexive for every modelled pattern variant
(fuel-based nested induction over the pattern depth). -/
theorem patEquals_refl_aux : ∀ (n : Nat) (p : Pattern), pdepth p ≤ n → patEquals p p = true := by
  intro n
  induction n with
  | zero =>
    intro p hdep
    exfalso
    cases p <;> simp [pdepth, pdepth_choice, pdepth_plist] at hdep
  | succ n ih =>
    intro p hdep
    cases p with
    | sequence s => simp [patEquals]
    | choice ps =>
      rw [pdepth_choice] at hdep
      have hunf : patEquals (.choice ps) (.choice ps) =
          ps.attach.all fun pp => ps.any fun p2 => patEquals pp.1 p2 := by
        simp [patEquals]
      rw [hunf, List.all_eq_true]
      intro pp hpp
      rw [List.any_eq_true]
      refine ⟨pp.1, pp.2, ?_⟩
      exact ih pp.1 (by have := pdepth_mem_le ps pp.1 pp.2; omega)
    | plist ps =>
      rw [pdepth_plist] at hdep
      have hunf : patEquals (.plist ps) (.plist ps) =
          (ps.zip ps).all fun pr => patEquals pr.1 pr.2 := by
        simp [patEquals, patEquals_plist_zip]
      rw [hunf, List.all_eq_true]
      intro pr hpr
      have h1 := zip_self_eq ps pr hpr
      have h2 : pr.1 ∈ ps := (List.mem_zip hpr).1
      rw [← h1]
      exact ih pr.1 (by have := pdepth_mem_le ps pr.1 h2; omega)
    | pnot p =>
      have hdep2 : pdepth p ≤ n := by
        simp only [pdepth] at hdep
        omega
      simp only [patEquals]
      exact ih p hdep2
    | range lo hi => simp [patEquals]
    | mask m => simp [patEquals]
    | anyMask m => simp [patEquals]

/-- Equals is reflexive. -/
theorem patEquals_refl (p : Pattern) : patEquals p p = true :=
  patEquals_refl_aux (pdepth p) p (Nat.le_refl _)

/-- C7.  Pattern round trip: for every pattern of the modelled variants
(Sequence, Choice, List, Not, Range, Mask, AnyMask), loading its save
yields a pattern p' with p.Equals(p') (indeed p' = p); the fuel pdepth p
bounds the loader's recursion depth. -/
theorem pattern_save_load_roundtrip (p : Pattern) :
    ∃ p', loadP (pdepth p) (save p) = some (p', []) ∧ patEquals p p' = true := by
  refine ⟨p, ?_, patEquals_refl p⟩
  have h := loadP_save (pdepth p) p [] (Nat.le_refl _)
  simpa using h

end Siegfried
